import Mathlib

/-!
The tokenizer of tiny-json-parser, `src/json_tokenizer.c`.

A shallow embedding of the scanner and the properties proved about it.

Memory model.  The input buffer is the list of bytes of the object the
tokenizer points into (`json`), bytes being natural numbers (character codes).
Reading `json[i]` for an index inside the object gives the byte; a read outside
the object is undefined behaviour in C and is modelled by the result `none`,
which every function propagates.  Every loop of the scanner moves the cursor
forward and reads the byte under the cursor first, so each loop is total in this
model: it either stops or runs into the end of the object.  The cursor is a
`size_t` in the source; it never exceeds the size of the object by more than
one, so it is a natural number here and no wrap-around arises.
-/

namespace TinyJson

/-! ## Data model -/

/-- Token kinds, the enumeration `JsonTokenType` in the order the switch of
`json_token_type_to_string` lists them. -/
inductive JsonTokenType where
  | TOKEN_NONE
  | TOKEN_LEFT_BRACE
  | TOKEN_RIGHT_BRACE
  | TOKEN_LEFT_BRACKET
  | TOKEN_RIGHT_BRACKET
  | TOKEN_COLON
  | TOKEN_COMMA
  | TOKEN_STRING
  | TOKEN_NUMBER
  | TOKEN_TRUE
  | TOKEN_FALSE
  | TOKEN_NULL
  | TOKEN_EOF
  | TOKEN_ERROR
  deriving DecidableEq, Repr

open JsonTokenType

/-- Cursor state `JsonTokenizer`: the buffer pointed to and the byte offset. -/
structure JsonTokenizer where
  json : List Nat
  pos : Nat
  deriving DecidableEq, Repr

/-- Token `JsonToken`: `value` is `none` for the C null pointer, otherwise
the bytes of the owned copy. -/
structure JsonToken where
  type : JsonTokenType
  value : Option (List Nat)
  deriving DecidableEq, Repr

/-! ## Collaborators that are not part of the source file -/

/-- Modelled from the spec: `json_is_whitespace` is declared in `json_utils.h`,
which is not among the sources.  The spec gives the whitespace set as space,
tab, newline and carriage return. -/
def json_is_whitespace (c : Nat) : Bool :=
  c == 32 || c == 9 || c == 10 || c == 13

/-- Modelled from the spec: `json_strdup_range` is declared in `json_utils.h`,
which is not among the sources.  The spec describes it as the primitive that
allocates an owned copy of N bytes starting at offset O; the copy is taken as
always succeeding. -/
def json_strdup_range (json : List Nat) (start length : Nat) : List Nat :=
  (json.drop start).take length

/-- The C library `strncmp(&json[pos], lit, n)`, reduced to whether it returns 0.
Bytes are compared one at a time for at most `n` positions; the comparison
stops with a nonzero result at the first difference and with 0 at a common NUL.
`lit` is the literal without its terminator, which is read as 0 at its end. -/
def strncmp_eq (json : List Nat) (pos : Nat) (lit : List Nat) : Nat → Option Bool
  | 0 => some true
  | n + 1 =>
    match json[pos]? with
    | none => none
    | some a =>
      let b := lit.headD 0
      if a ≠ b then some false
      else if a = 0 then some true
      else strncmp_eq json (pos + 1) lit.tail n

/-! ## The scanner -/

/-- The function `json_token_type_to_string`.  Its argument is the integer value
of the C enumeration, which may lie outside the enumerators.  The numbering of
the enumerators is fixed by `json_tokenizer.h`, which is not among the sources,
and is taken as the parameter `code`; the cases of the switch are tried in the
order they are written. -/
def json_token_type_to_string (code : JsonTokenType → Int) (token_type : Int) : String :=
  if token_type = code TOKEN_NONE then "TOKEN_NONE"
  else if token_type = code TOKEN_LEFT_BRACE then "TOKEN_LEFT_BRACE"
  else if token_type = code TOKEN_RIGHT_BRACE then "TOKEN_RIGHT_BRACE"
  else if token_type = code TOKEN_LEFT_BRACKET then "TOKEN_LEFT_BRACKET"
  else if token_type = code TOKEN_RIGHT_BRACKET then "TOKEN_RIGHT_BRACKET"
  else if token_type = code TOKEN_COLON then "TOKEN_COLON"
  else if token_type = code TOKEN_COMMA then "TOKEN_COMMA"
  else if token_type = code TOKEN_STRING then "TOKEN_STRING"
  else if token_type = code TOKEN_NUMBER then "TOKEN_NUMBER"
  else if token_type = code TOKEN_TRUE then "TOKEN_TRUE"
  else if token_type = code TOKEN_FALSE then "TOKEN_FALSE"
  else if token_type = code TOKEN_NULL then "TOKEN_NULL"
  else if token_type = code TOKEN_EOF then "TOKEN_EOF"
  else if token_type = code TOKEN_ERROR then "TOKEN_ERROR"
  else "UNKNOWN_TOKEN"

/-- Modelled from the spec: the numbering of the enumerators of `JsonTokenType`,
declared in `json_tokenizer.h`, which is not among the sources.  The spec lists
the members in this order; C numbers enumerators from 0 when none is given a
value. -/
def enum_order : JsonTokenType → Int
  | TOKEN_NONE => 0
  | TOKEN_LEFT_BRACE => 1
  | TOKEN_RIGHT_BRACE => 2
  | TOKEN_LEFT_BRACKET => 3
  | TOKEN_RIGHT_BRACKET => 4
  | TOKEN_COLON => 5
  | TOKEN_COMMA => 6
  | TOKEN_STRING => 7
  | TOKEN_NUMBER => 8
  | TOKEN_TRUE => 9
  | TOKEN_FALSE => 10
  | TOKEN_NULL => 11
  | TOKEN_EOF => 12
  | TOKEN_ERROR => 13

/-- The function `json_tokenizer_init`. -/
def json_tokenizer_init (json : List Nat) : JsonTokenizer :=
  { json := json, pos := 0 }

/-- The function `json_tokenizer_reset`: the same two assignments as
`json_tokenizer_init`, whatever the previous state was. -/
def json_tokenizer_reset (_tokenizer : JsonTokenizer) (json : List Nat) : JsonTokenizer :=
  { json := json, pos := 0 }

/-- The function `json_token_free`: a present value is released and the field
cleared; an absent value is left alone. -/
def json_token_free (token : JsonToken) : JsonToken :=
  match token.value with
  | some _ => { token with value := none }
  | none => token

/-- The function `skip_whitespace`: advance while the byte under the cursor is whitespace. -/
def skip_whitespace (tokenizer : JsonTokenizer) : Option JsonTokenizer :=
  match h : tokenizer.json[tokenizer.pos]? with
  | none => none
  | some c =>
    if json_is_whitespace c then
      skip_whitespace { tokenizer with pos := tokenizer.pos + 1 }
    else some tokenizer
termination_by tokenizer.json.length - tokenizer.pos
decreasing_by
  have hlt := (List.getElem?_eq_some_iff.mp h).1
  omega

/-- The string loop of `json_get_next_token` (lines 115 to 126): from `pos`, stop
on a quote or a NUL, step by 2 on a backslash and by 1 otherwise.  The result
is the cursor at which the loop stops. -/
def string_loop (json : List Nat) (pos : Nat) : Option Nat :=
  match h : json[pos]? with
  | none => none
  | some c =>
    if c ≠ 34 ∧ c ≠ 0 then
      if c = 92 then string_loop json (pos + 2)
      else string_loop json (pos + 1)
    else some pos
termination_by json.length - pos
decreasing_by
  all_goals
    have hlt := (List.getElem?_eq_some_iff.mp h).1
    omega

/-- The digit loops of `json_get_next_token` (lines 188 to 191 and 195 to 198):
advance while the byte under the cursor is between the characters 0 and 9. -/
def digit_loop (json : List Nat) (pos : Nat) : Option Nat :=
  match h : json[pos]? with
  | none => none
  | some c =>
    if 48 ≤ c ∧ c ≤ 57 then digit_loop json (pos + 1)
    else some pos
termination_by json.length - pos
decreasing_by
  have hlt := (List.getElem?_eq_some_iff.mp h).1
  omega

/-- The keyword branches of `json_get_next_token` (cases t, f and n): on a
match of the literal the given token kind is produced and the cursor moves by
the literal length, otherwise the kind is the error and the cursor stays. -/
def keyword_case (t : JsonTokenizer) (lit : List Nat) (n : Nat) (ty : JsonTokenType) :
    Option (JsonToken × JsonTokenizer) :=
  match strncmp_eq t.json t.pos lit n with
  | none => none
  | some true => some ({ type := ty, value := none }, { t with pos := t.pos + n })
  | some false => some ({ type := TOKEN_ERROR, value := none }, t)

/-- The string branch of `json_get_next_token` (case of the double quote). -/
def string_case (t : JsonTokenizer) : Option (JsonToken × JsonTokenizer) :=
  let start := t.pos + 1
  match string_loop t.json start with
  | none => none
  | some p =>
    let length := p - start
    match t.json[p]? with
    | none => none
    | some c =>
      if c = 34 then
        some ({ type := TOKEN_STRING, value := some (json_strdup_range t.json start length) },
              { t with pos := p + 1 })
      else
        some ({ type := TOKEN_ERROR, value := none }, { t with pos := p })

/-- The number branch of `json_get_next_token` (the default case when the
current byte is a digit or the minus sign). -/
def number_case (t : JsonTokenizer) (current : Nat) : Option (JsonToken × JsonTokenizer) :=
  let start := t.pos
  let p0 := if current = 45 then t.pos + 1 else t.pos
  match digit_loop t.json p0 with
  | none => none
  | some p1 =>
    match t.json[p1]? with
    | none => none
    | some d =>
      let after :=
        if d = 46 then digit_loop t.json (p1 + 1) else some p1
      match after with
      | none => none
      | some p2 =>
        let length := p2 - start
        some ({ type := TOKEN_NUMBER, value := some (json_strdup_range t.json start length) },
              { t with pos := p2 })

/-- The function `json_get_next_token`.  The result is the token returned and the
tokenizer state left behind, or `none` when a read falls outside the buffer. -/
def json_get_next_token (tokenizer : JsonTokenizer) : Option (JsonToken × JsonTokenizer) :=
  match skip_whitespace tokenizer with
  | none => none
  | some t =>
    match t.json[t.pos]? with
    | none => none
    | some current =>
      if current = 0 then
        some ({ type := TOKEN_EOF, value := none }, t)
      else if current = 123 then
        some ({ type := TOKEN_LEFT_BRACE, value := none }, { t with pos := t.pos + 1 })
      else if current = 125 then
        some ({ type := TOKEN_RIGHT_BRACE, value := none }, { t with pos := t.pos + 1 })
      else if current = 91 then
        some ({ type := TOKEN_LEFT_BRACKET, value := none }, { t with pos := t.pos + 1 })
      else if current = 93 then
        some ({ type := TOKEN_RIGHT_BRACKET, value := none }, { t with pos := t.pos + 1 })
      else if current = 58 then
        some ({ type := TOKEN_COLON, value := none }, { t with pos := t.pos + 1 })
      else if current = 44 then
        some ({ type := TOKEN_COMMA, value := none }, { t with pos := t.pos + 1 })
      else if current = 34 then
        string_case t
      else if current = 116 then
        keyword_case t [116, 114, 117, 101] 4 TOKEN_TRUE
      else if current = 102 then
        keyword_case t [102, 97, 108, 115, 101] 5 TOKEN_FALSE
      else if current = 110 then
        keyword_case t [110, 117, 108, 108] 4 TOKEN_NULL
      else if (48 ≤ current ∧ current ≤ 57) ∨ current = 45 then
        number_case t current
      else
        some ({ type := TOKEN_ERROR, value := none }, t)

/-- A caller making `k` successive `json_get_next_token` calls: the tokens
returned, in order, and the state after the last call. -/
def call_sequence : Nat → JsonTokenizer → Option (List JsonToken × JsonTokenizer)
  | 0, t => some ([], t)
  | k + 1, t =>
    match json_get_next_token t with
    | none => none
    | some (tok, t1) =>
      match call_sequence k t1 with
      | none => none
      | some (toks, t2) => some (tok :: toks, t2)

/-- A caller making `k` successive `json_get_next_token` calls, recording for
each call the token returned and the cursor before and after the call. -/
def call_trace : Nat → JsonTokenizer → Option (List (JsonToken × Nat × Nat))
  | 0, _ => some []
  | k + 1, t =>
    match json_get_next_token t with
    | none => none
    | some (tok, t1) =>
      match call_trace k t1 with
      | none => none
      | some rest => some ((tok, t.pos, t1.pos) :: rest)

/-! ## Specification-side notions -/

/-- The bytes of the buffer at the indices from `a` up to, not including, `b`. -/
def byte_range (json : List Nat) (a b : Nat) : List Nat :=
  (json.drop a).take (b - a)

/-- The lexeme of a token: the structural character, the literal of a keyword,
the value of a number, the value of a string between its two quotes; nothing
for the remaining kinds. -/
def lexeme (tok : JsonToken) : List Nat :=
  match tok.type with
  | TOKEN_LEFT_BRACE => [123]
  | TOKEN_RIGHT_BRACE => [125]
  | TOKEN_LEFT_BRACKET => [91]
  | TOKEN_RIGHT_BRACKET => [93]
  | TOKEN_COLON => [58]
  | TOKEN_COMMA => [44]
  | TOKEN_TRUE => [116, 114, 117, 101]
  | TOKEN_FALSE => [102, 97, 108, 115, 101]
  | TOKEN_NULL => [110, 117, 108, 108]
  | TOKEN_NUMBER => tok.value.getD []
  | TOKEN_STRING => 34 :: (tok.value.getD [] ++ [34])
  | _ => []

/-- The first byte at or after the cursor of `t` that is not whitespace is the
byte `c`, at index `s`: every byte from the cursor up to `s` is whitespace. -/
def FirstNonWs (t : JsonTokenizer) (s c : Nat) : Prop :=
  t.pos ≤ s ∧
  (∀ i, i < s → t.pos ≤ i → (t.json[i]?).map json_is_whitespace = some true) ∧
  t.json[s]? = some c ∧ json_is_whitespace c = false

instance (t : JsonTokenizer) (s c : Nat) : Decidable (FirstNonWs t s c) := by
  unfold FirstNonWs; infer_instance

/-- The tokenizer is over a NUL-terminated buffer: the buffer holds a NUL at or
after the cursor, so the C string the cursor points into ends inside the object. -/
def NulTerminated (t : JsonTokenizer) : Prop :=
  0 ∈ t.json.drop t.pos

instance (t : JsonTokenizer) : Decidable (NulTerminated t) := by
  unfold NulTerminated; infer_instance

/-- The body of a well-formed string literal: a sequence of units, each either
one byte that is not a quote, a NUL or a backslash, or a backslash followed by
one byte that is not a NUL (which may be a quote or another backslash). -/
inductive StringBody : List Nat → Prop where
  | nil : StringBody []
  | plain (c : Nat) (rest : List Nat) :
      c ≠ 34 → c ≠ 0 → c ≠ 92 → StringBody rest → StringBody (c :: rest)
  | escape (d : Nat) (rest : List Nat) :
      d ≠ 0 → StringBody rest → StringBody (92 :: d :: rest)

/-- The shape of a number lexeme: an optional minus sign, zero or more digits,
then optionally a dot followed by zero or more digits. -/
def NumberShape (w : List Nat) : Prop :=
  ∃ sign ds frac, w = sign ++ ds ++ frac ∧ (sign = [] ∨ sign = [45]) ∧
    (∀ x ∈ ds, 48 ≤ x ∧ x ≤ 57) ∧
    (frac = [] ∨ ∃ fs, frac = 46 :: fs ∧ ∀ x ∈ fs, 48 ≤ x ∧ x ≤ 57)

/-! ## Reading the buffer through its suffixes -/

theorem getElem?_of_drop_eq_cons {json : List Nat} {p x : Nat} {r : List Nat}
    (h : json.drop p = x :: r) : json[p]? = some x := by
  have := congrArg (fun l => l[0]?) h
  simpa [List.getElem?_drop] using this

theorem drop_succ_of_drop_eq_cons {json : List Nat} {p x : Nat} {r : List Nat}
    (h : json.drop p = x :: r) : json.drop (p + 1) = r := by
  have := congrArg (fun l => l.drop 1) h
  simpa [List.drop_drop, Nat.add_comm] using this

theorem drop_add_of_drop_eq_append {json : List Nat} {p : Nat} (l r : List Nat)
    (h : json.drop p = l ++ r) : json.drop (p + l.length) = r := by
  have := congrArg (fun x => x.drop l.length) h
  simpa [List.drop_drop] using this

/-- The sentinel that follows the cursor also follows the first non-whitespace
byte: the whitespace in between holds no NUL. -/
theorem nul_after_first {t : JsonTokenizer} {s c : Nat} (h : FirstNonWs t s c)
    (hn : NulTerminated t) : 0 ∈ t.json.drop s := by
  obtain ⟨hle, hws, _, _⟩ := h
  obtain ⟨i, hi⟩ := List.mem_iff_getElem?.mp hn
  rw [List.getElem?_drop] at hi
  by_cases hlt : t.pos + i < s
  · have := hws (t.pos + i) hlt (Nat.le_add_right _ _)
    rw [hi] at this
    simp [json_is_whitespace] at this
  · refine List.mem_iff_getElem?.mpr ⟨t.pos + i - s, ?_⟩
    rw [List.getElem?_drop]
    have e : s + (t.pos + i - s) = t.pos + i := by omega
    rw [e]; exact hi

/-! ## Unfolding the loops one step -/

theorem skip_whitespace_eq (t : JsonTokenizer) :
    skip_whitespace t =
      match t.json[t.pos]? with
      | none => none
      | some c =>
        if json_is_whitespace c then skip_whitespace { t with pos := t.pos + 1 }
        else some t := by
  rw [skip_whitespace]
  split
  · rename_i h; rw [h]
  · rename_i c h; rw [h]

theorem string_loop_eq (json : List Nat) (pos : Nat) :
    string_loop json pos =
      match json[pos]? with
      | none => none
      | some c =>
        if c ≠ 34 ∧ c ≠ 0 then
          if c = 92 then string_loop json (pos + 2) else string_loop json (pos + 1)
        else some pos := by
  rw [string_loop]
  split
  · rename_i h; rw [h]
  · rename_i c h; rw [h]

theorem digit_loop_eq (json : List Nat) (pos : Nat) :
    digit_loop json pos =
      match json[pos]? with
      | none => none
      | some c => if 48 ≤ c ∧ c ≤ 57 then digit_loop json (pos + 1) else some pos := by
  rw [digit_loop]
  split
  · rename_i h; rw [h]
  · rename_i c h; rw [h]

theorem skip_whitespace_ws {t : JsonTokenizer} {c : Nat} (h : t.json[t.pos]? = some c)
    (hc : json_is_whitespace c = true) :
    skip_whitespace t = skip_whitespace { t with pos := t.pos + 1 } := by
  rw [skip_whitespace_eq, h]; simp [hc]

theorem skip_whitespace_stop {t : JsonTokenizer} {c : Nat} (h : t.json[t.pos]? = some c)
    (hc : json_is_whitespace c = false) :
    skip_whitespace t = some t := by
  rw [skip_whitespace_eq, h]; simp [hc]

theorem skip_whitespace_none {t : JsonTokenizer} (h : t.json[t.pos]? = none) :
    skip_whitespace t = none := by
  rw [skip_whitespace_eq, h]

theorem string_loop_none {json : List Nat} {pos : Nat} (h : json[pos]? = none) :
    string_loop json pos = none := by
  rw [string_loop_eq, h]

theorem string_loop_stop {json : List Nat} {pos c : Nat} (h : json[pos]? = some c)
    (hc : c = 34 ∨ c = 0) : string_loop json pos = some pos := by
  rw [string_loop_eq, h]; rcases hc with rfl | rfl <;> simp

theorem string_loop_esc {json : List Nat} {pos : Nat} (h : json[pos]? = some 92) :
    string_loop json pos = string_loop json (pos + 2) := by
  rw [string_loop_eq, h]; simp

theorem string_loop_next {json : List Nat} {pos c : Nat} (h : json[pos]? = some c)
    (h1 : c ≠ 34) (h2 : c ≠ 0) (h3 : c ≠ 92) :
    string_loop json pos = string_loop json (pos + 1) := by
  rw [string_loop_eq, h]; simp [h1, h2, h3]

theorem digit_loop_none {json : List Nat} {pos : Nat} (h : json[pos]? = none) :
    digit_loop json pos = none := by
  rw [digit_loop_eq, h]

theorem digit_loop_next {json : List Nat} {pos c : Nat} (h : json[pos]? = some c)
    (hc : 48 ≤ c ∧ c ≤ 57) : digit_loop json pos = digit_loop json (pos + 1) := by
  rw [digit_loop_eq, h]; simp [hc]

theorem digit_loop_stop {json : List Nat} {pos c : Nat} (h : json[pos]? = some c)
    (hc : ¬ (48 ≤ c ∧ c ≤ 57)) : digit_loop json pos = some pos := by
  rw [digit_loop_eq, h]; simp only [hc, if_false]

/-! ## Whitespace skipping -/

/-- When the first non-whitespace byte from the cursor is at index `s`, the
whitespace loop stops there. -/
theorem skip_whitespace_first {t : JsonTokenizer} {s c : Nat} (h : FirstNonWs t s c) :
    skip_whitespace t = some { t with pos := s } := by
  obtain ⟨hle, hws, hs, hc⟩ := h
  obtain ⟨json, pos⟩ := t
  simp only at hle hws hs ⊢
  generalize hk : s - pos = k
  induction k generalizing pos with
  | zero =>
    have : pos = s := by omega
    subst this
    exact skip_whitespace_stop hs hc
  | succ k ih =>
    have h1 := hws pos (by omega) le_rfl
    cases hd : json[pos]? with
    | none => rw [hd] at h1; simp at h1
    | some d =>
      rw [hd] at h1
      simp only [Option.map_some', Option.some.injEq] at h1
      have e : skip_whitespace ⟨json, pos⟩ = skip_whitespace ⟨json, pos + 1⟩ :=
        skip_whitespace_ws (t := ⟨json, pos⟩) hd h1
      rw [e]
      exact ih (pos + 1) (by omega) (fun i hi hp => hws i hi (by omega)) (by omega)

/-- The call reduces to the dispatch on the first non-whitespace byte. -/
theorem json_get_next_token_first {t : JsonTokenizer} {s c : Nat} (h : FirstNonWs t s c) :
    json_get_next_token t =
      (if c = 0 then
        some ({ type := TOKEN_EOF, value := none }, ({ json := t.json, pos := s } : JsonTokenizer))
      else if c = 123 then
        some ({ type := TOKEN_LEFT_BRACE, value := none }, { json := t.json, pos := s + 1 })
      else if c = 125 then
        some ({ type := TOKEN_RIGHT_BRACE, value := none }, { json := t.json, pos := s + 1 })
      else if c = 91 then
        some ({ type := TOKEN_LEFT_BRACKET, value := none }, { json := t.json, pos := s + 1 })
      else if c = 93 then
        some ({ type := TOKEN_RIGHT_BRACKET, value := none }, { json := t.json, pos := s + 1 })
      else if c = 58 then
        some ({ type := TOKEN_COLON, value := none }, { json := t.json, pos := s + 1 })
      else if c = 44 then
        some ({ type := TOKEN_COMMA, value := none }, { json := t.json, pos := s + 1 })
      else if c = 34 then
        string_case { json := t.json, pos := s }
      else if c = 116 then
        keyword_case { json := t.json, pos := s } [116, 114, 117, 101] 4 TOKEN_TRUE
      else if c = 102 then
        keyword_case { json := t.json, pos := s } [102, 97, 108, 115, 101] 5 TOKEN_FALSE
      else if c = 110 then
        keyword_case { json := t.json, pos := s } [110, 117, 108, 108] 4 TOKEN_NULL
      else if (48 ≤ c ∧ c ≤ 57) ∨ c = 45 then
        number_case { json := t.json, pos := s } c
      else
        some ({ type := TOKEN_ERROR, value := none }, { json := t.json, pos := s })) := by
  rw [json_get_next_token, skip_whitespace_first h]
  simp only [h.2.2.1]

/-- Whenever the whitespace loop returns, it returns the same buffer with the
cursor on the first non-whitespace byte. -/
theorem skip_whitespace_some {t t1 : JsonTokenizer} (h : skip_whitespace t = some t1) :
    t1.json = t.json ∧ ∃ c, FirstNonWs t t1.pos c := by
  obtain ⟨json, pos⟩ := t
  generalize hk : json.length - pos = k
  induction k generalizing pos with
  | zero =>
    have hn : json[pos]? = none := List.getElem?_eq_none (by omega)
    rw [skip_whitespace_none (t := ⟨json, pos⟩) hn] at h
    cases h
  | succ k ih =>
    cases hd : json[pos]? with
    | none =>
      rw [skip_whitespace_none (t := ⟨json, pos⟩) hd] at h
      cases h
    | some d =>
      cases hw : json_is_whitespace d with
      | false =>
        rw [skip_whitespace_stop (t := ⟨json, pos⟩) hd hw] at h
        cases h
        exact ⟨rfl, d, le_rfl, fun i hi hp => absurd hp (by simp only; omega), hd, hw⟩
      | true =>
        rw [skip_whitespace_ws (t := ⟨json, pos⟩) hd hw] at h
        obtain ⟨hj, c, hle, hws, hs, hc⟩ := ih (pos + 1) h (by omega)
        simp only at hj hle hws hs
        refine ⟨hj, c, by simp only; omega, ?_, hs, hc⟩
        intro i hi hp
        simp only at hp ⊢
        by_cases e : i = pos
        · subst e; rw [hd]; simp [hw]
        · exact hws i hi (by omega)

theorem string_loop_ge {json : List Nat} {p q : Nat} (h : string_loop json p = some q) :
    p ≤ q := by
  generalize hk : json.length - p = k
  induction k using Nat.strong_induction_on generalizing p with
  | _ k ih =>
    rw [string_loop_eq] at h
    cases hd : json[p]? with
    | none => rw [hd] at h; cases h
    | some d =>
      have hlt : p < json.length := (List.getElem?_eq_some_iff.mp hd).1
      rw [hd] at h
      simp only at h
      split at h
      · split at h
        · have := ih (json.length - (p + 2)) (by omega) h rfl
          omega
        · have := ih (json.length - (p + 1)) (by omega) h rfl
          omega
      · cases h; exact le_rfl

theorem digit_loop_ge {json : List Nat} {p q : Nat} (h : digit_loop json p = some q) :
    p ≤ q := by
  generalize hk : json.length - p = k
  induction k using Nat.strong_induction_on generalizing p with
  | _ k ih =>
    rw [digit_loop_eq] at h
    cases hd : json[p]? with
    | none => rw [hd] at h; cases h
    | some d =>
      have hlt : p < json.length := (List.getElem?_eq_some_iff.mp hd).1
      rw [hd] at h
      simp only at h
      split at h
      · have := ih (json.length - (p + 1)) (by omega) h rfl
        omega
      · cases h; exact le_rfl

/-- The string branch returns a string token or an error token, on the same
buffer, with the cursor past the opening quote. -/
theorem string_case_some {t t1 : JsonTokenizer} {tok : JsonToken}
    (h : string_case t = some (tok, t1)) :
    t1.json = t.json ∧ t.pos < t1.pos ∧
    ((tok.type = TOKEN_STRING ∧ tok.value ≠ none) ∨ (tok.type = TOKEN_ERROR ∧ tok.value = none)) := by
  unfold string_case at h
  simp only at h
  cases hl : string_loop t.json (t.pos + 1) with
  | none => rw [hl] at h; cases h
  | some p =>
    have hge := string_loop_ge hl
    rw [hl] at h
    simp only at h
    cases hd : t.json[p]? with
    | none => rw [hd] at h; cases h
    | some d =>
      rw [hd] at h
      simp only at h
      split at h <;> cases h
      · exact ⟨rfl, by simp only; omega, Or.inl ⟨rfl, by simp⟩⟩
      · exact ⟨rfl, by simp only; omega, Or.inr ⟨rfl, rfl⟩⟩

/-- A keyword branch returns its own token kind, moving the cursor by the
literal length, or the error token with the state untouched. -/
theorem keyword_case_some {t t1 : JsonTokenizer} {tok : JsonToken} {lit : List Nat} {n : Nat}
    {ty : JsonTokenType} (h : keyword_case t lit n ty = some (tok, t1)) :
    (tok = { type := ty, value := none } ∧ t1 = { json := t.json, pos := t.pos + n }) ∨
    (tok = { type := TOKEN_ERROR, value := none } ∧ t1 = t) := by
  unfold keyword_case at h
  split at h
  · cases h
  · cases h; exact Or.inl ⟨rfl, rfl⟩
  · cases h; exact Or.inr ⟨rfl, rfl⟩

/-- The number branch returns a number token carrying a value, on the same
buffer, with the cursor moved forward. -/
theorem number_case_some {t t1 : JsonTokenizer} {tok : JsonToken} {c : Nat}
    (hc : t.json[t.pos]? = some c) (hcur : (48 ≤ c ∧ c ≤ 57) ∨ c = 45)
    (h : number_case t c = some (tok, t1)) :
    t1.json = t.json ∧ t.pos < t1.pos ∧ tok.type = TOKEN_NUMBER ∧ tok.value ≠ none := by
  unfold number_case at h
  simp only at h
  cases hl : digit_loop t.json (if c = 45 then t.pos + 1 else t.pos) with
  | none => rw [hl] at h; cases h
  | some p1 =>
    have hp1 : t.pos < p1 := by
      by_cases e : c = 45
      · rw [if_pos e] at hl
        have := digit_loop_ge hl
        omega
      · rw [if_neg e] at hl
        have hdig : 48 ≤ c ∧ c ≤ 57 := hcur.resolve_right e
        rw [digit_loop_next hc hdig] at hl
        have := digit_loop_ge hl
        omega
    rw [hl] at h
    simp only at h
    cases hd : t.json[p1]? with
    | none => rw [hd] at h; cases h
    | some d =>
      rw [hd] at h
      simp only at h
      by_cases e : d = 46
      · rw [if_pos e] at h
        cases hl2 : digit_loop t.json (p1 + 1) with
        | none => rw [hl2] at h; cases h
        | some p2 =>
          have := digit_loop_ge hl2
          rw [hl2] at h
          cases h
          exact ⟨rfl, by simp only; omega, rfl, by simp⟩
      · rw [if_neg e] at h
        cases h
        exact ⟨rfl, hp1, rfl, by simp⟩

/-- What a returning call can have done: it found the first non-whitespace
byte `c` at some index `s`, kept the buffer, and either reported the end of the
input there, or an error at or after `s`, or a proper token ending after `s`. -/
theorem json_get_next_token_some {t t1 : JsonTokenizer} {tok : JsonToken}
    (h : json_get_next_token t = some (tok, t1)) :
    ∃ s c, FirstNonWs t s c ∧ t1.json = t.json ∧
      ((c = 0 ∧ tok = { type := TOKEN_EOF, value := none } ∧ t1.pos = s) ∨
       (c ≠ 0 ∧ tok = { type := TOKEN_ERROR, value := none } ∧ s ≤ t1.pos) ∨
       (c ≠ 0 ∧ tok.type ≠ TOKEN_EOF ∧ tok.type ≠ TOKEN_ERROR ∧ s < t1.pos)) := by
  cases hs : skip_whitespace t with
  | none => rw [json_get_next_token, hs] at h; cases h
  | some t0 =>
    obtain ⟨_, c, hf⟩ := skip_whitespace_some hs
    have hcur : t.json[t0.pos]? = some c := hf.2.2.1
    rw [json_get_next_token_first hf] at h
    refine ⟨t0.pos, c, hf, ?_⟩
    by_cases h0 : c = 0
    · rw [if_pos h0] at h; cases h; exact ⟨rfl, Or.inl ⟨h0, rfl, rfl⟩⟩
    rw [if_neg h0] at h
    by_cases h123 : c = 123
    · rw [if_pos h123] at h; cases h
      exact ⟨rfl, Or.inr (Or.inr ⟨h0, by simp, by simp, by simp⟩)⟩
    rw [if_neg h123] at h
    by_cases h125 : c = 125
    · rw [if_pos h125] at h; cases h
      exact ⟨rfl, Or.inr (Or.inr ⟨h0, by simp, by simp, by simp⟩)⟩
    rw [if_neg h125] at h
    by_cases h91 : c = 91
    · rw [if_pos h91] at h; cases h
      exact ⟨rfl, Or.inr (Or.inr ⟨h0, by simp, by simp, by simp⟩)⟩
    rw [if_neg h91] at h
    by_cases h93 : c = 93
    · rw [if_pos h93] at h; cases h
      exact ⟨rfl, Or.inr (Or.inr ⟨h0, by simp, by simp, by simp⟩)⟩
    rw [if_neg h93] at h
    by_cases h58 : c = 58
    · rw [if_pos h58] at h; cases h
      exact ⟨rfl, Or.inr (Or.inr ⟨h0, by simp, by simp, by simp⟩)⟩
    rw [if_neg h58] at h
    by_cases h44 : c = 44
    · rw [if_pos h44] at h; cases h
      exact ⟨rfl, Or.inr (Or.inr ⟨h0, by simp, by simp, by simp⟩)⟩
    rw [if_neg h44] at h
    by_cases h34 : c = 34
    · rw [if_pos h34] at h
      obtain ⟨hj, hp, hty⟩ := string_case_some h
      refine ⟨hj, ?_⟩
      rcases hty with ⟨e, _⟩ | ⟨e, ev⟩
      · exact Or.inr (Or.inr ⟨h0, by simp [e], by simp [e], hp⟩)
      · refine Or.inr (Or.inl ⟨h0, ?_, le_of_lt hp⟩)
        cases tok; simp only at e ev; rw [e, ev]
    rw [if_neg h34] at h
    by_cases h116 : c = 116
    · rw [if_pos h116] at h
      rcases keyword_case_some h with ⟨e1, e2⟩ | ⟨e1, e2⟩
      · subst e1 e2; exact ⟨rfl, Or.inr (Or.inr ⟨h0, by simp, by simp, by simp⟩)⟩
      · subst e1 e2; exact ⟨rfl, Or.inr (Or.inl ⟨h0, rfl, le_rfl⟩)⟩
    rw [if_neg h116] at h
    by_cases h102 : c = 102
    · rw [if_pos h102] at h
      rcases keyword_case_some h with ⟨e1, e2⟩ | ⟨e1, e2⟩
      · subst e1 e2; exact ⟨rfl, Or.inr (Or.inr ⟨h0, by simp, by simp, by simp⟩)⟩
      · subst e1 e2; exact ⟨rfl, Or.inr (Or.inl ⟨h0, rfl, le_rfl⟩)⟩
    rw [if_neg h102] at h
    by_cases h110 : c = 110
    · rw [if_pos h110] at h
      rcases keyword_case_some h with ⟨e1, e2⟩ | ⟨e1, e2⟩
      · subst e1 e2; exact ⟨rfl, Or.inr (Or.inr ⟨h0, by simp, by simp, by simp⟩)⟩
      · subst e1 e2; exact ⟨rfl, Or.inr (Or.inl ⟨h0, rfl, le_rfl⟩)⟩
    rw [if_neg h110] at h
    by_cases hnum : (48 ≤ c ∧ c ≤ 57) ∨ c = 45
    · rw [if_pos hnum] at h
      obtain ⟨hj, hp, hty, _⟩ :=
        number_case_some (t := { json := t.json, pos := t0.pos }) hcur hnum h
      exact ⟨hj, Or.inr (Or.inr ⟨h0, by simp [hty], by simp [hty], hp⟩)⟩
    rw [if_neg hnum] at h
    cases h; exact ⟨rfl, Or.inr (Or.inl ⟨h0, rfl, le_rfl⟩)⟩

/-! ## Structural characters, unrecognized bytes, end of input -/

/-- C7: when the first non-whitespace byte, at index `s`, is one of the six
structural characters, the call returns the corresponding token kind with no
value and leaves the cursor at `s + 1`. -/
theorem structural_token_correct (t : JsonTokenizer) (s c : Nat) (h : FirstNonWs t s c) :
    (c = 123 → json_get_next_token t =
      some ({ type := TOKEN_LEFT_BRACE, value := none }, { json := t.json, pos := s + 1 })) ∧
    (c = 125 → json_get_next_token t =
      some ({ type := TOKEN_RIGHT_BRACE, value := none }, { json := t.json, pos := s + 1 })) ∧
    (c = 91 → json_get_next_token t =
      some ({ type := TOKEN_LEFT_BRACKET, value := none }, { json := t.json, pos := s + 1 })) ∧
    (c = 93 → json_get_next_token t =
      some ({ type := TOKEN_RIGHT_BRACKET, value := none }, { json := t.json, pos := s + 1 })) ∧
    (c = 58 → json_get_next_token t =
      some ({ type := TOKEN_COLON, value := none }, { json := t.json, pos := s + 1 })) ∧
    (c = 44 → json_get_next_token t =
      some ({ type := TOKEN_COMMA, value := none }, { json := t.json, pos := s + 1 })) := by
  rw [json_get_next_token_first h]
  refine ⟨?_, ?_, ?_, ?_, ?_, ?_⟩ <;> intro hc <;> subst hc <;> simp

/-- Witness for C7: the input ` {` (a space, then a left brace). -/
theorem structural_token_correct_witness :
    FirstNonWs { json := [32, 123, 0], pos := 0 } 1 123 ∧
    json_get_next_token { json := [32, 123, 0], pos := 0 } =
      some ({ type := TOKEN_LEFT_BRACE, value := none }, { json := [32, 123, 0], pos := 2 }) :=
  ⟨by decide, (structural_token_correct { json := [32, 123, 0], pos := 0 } 1 123 (by decide)).1 rfl⟩

/-- C6: when the first non-whitespace byte, at index `s`, is not the sentinel,
not one of the characters that start a token, and not a digit, the call returns
the error token with no value and leaves the cursor at `s`. -/
theorem unrecognized_byte_error (t : JsonTokenizer) (s c : Nat) (h : FirstNonWs t s c)
    (h0 : c ≠ 0) (hstart : c ∉ [123, 125, 91, 93, 58, 44, 34, 116, 102, 110, 45])
    (hdigit : ¬ (48 ≤ c ∧ c ≤ 57)) :
    json_get_next_token t =
      some ({ type := TOKEN_ERROR, value := none }, { json := t.json, pos := s }) := by
  rw [json_get_next_token_first h]
  simp only [List.mem_cons, List.mem_singleton, not_or, List.not_mem_nil, or_false] at hstart
  obtain ⟨h1, h2, h3, h4, h5, h6, h7, h8, h9, h10, h11⟩ := hstart
  simp only [h0, h1, h2, h3, h4, h5, h6, h7, h8, h9, h10, h11, hdigit, if_false, or_self]

/-- Witness for C6: inputs beginning with `+`, `.`, `e` and `T`. -/
theorem unrecognized_byte_error_witness :
    json_get_next_token { json := [43, 49, 0], pos := 0 } =
      some ({ type := TOKEN_ERROR, value := none }, { json := [43, 49, 0], pos := 0 }) ∧
    json_get_next_token { json := [46, 53, 0], pos := 0 } =
      some ({ type := TOKEN_ERROR, value := none }, { json := [46, 53, 0], pos := 0 }) ∧
    json_get_next_token { json := [101, 0], pos := 0 } =
      some ({ type := TOKEN_ERROR, value := none }, { json := [101, 0], pos := 0 }) ∧
    json_get_next_token { json := [32, 84, 114, 117, 101, 0], pos := 0 } =
      some ({ type := TOKEN_ERROR, value := none },
        { json := [32, 84, 114, 117, 101, 0], pos := 1 }) :=
  ⟨unrecognized_byte_error { json := [43, 49, 0], pos := 0 } 0 43
      (by decide) (by decide) (by decide) (by decide),
   unrecognized_byte_error { json := [46, 53, 0], pos := 0 } 0 46
      (by decide) (by decide) (by decide) (by decide),
   unrecognized_byte_error { json := [101, 0], pos := 0 } 0 101
      (by decide) (by decide) (by decide) (by decide),
   unrecognized_byte_error { json := [32, 84, 114, 117, 101, 0], pos := 0 } 1 84
      (by decide) (by decide) (by decide) (by decide)⟩

/-- C8: on a buffer made only of space, tab, newline and carriage return bytes
(possibly none) followed by the sentinel, the first call after
`json_tokenizer_init` returns the end-of-input token with no value, the cursor
being at the index of the sentinel.  `rest` is whatever the object holds after
the sentinel (nothing, for a buffer that ends with it). -/
theorem whitespace_only_eof (w rest : List Nat)
    (hw : ∀ c ∈ w, c = 32 ∨ c = 9 ∨ c = 10 ∨ c = 13) :
    json_get_next_token (json_tokenizer_init (w ++ 0 :: rest)) =
      some ({ type := TOKEN_EOF, value := none },
        { json := w ++ 0 :: rest, pos := w.length }) := by
  have hfirst : FirstNonWs (json_tokenizer_init (w ++ 0 :: rest)) w.length 0 := by
    refine ⟨Nat.zero_le _, ?_, ?_, by decide⟩
    · intro i hi _
      simp only [json_tokenizer_init]
      rw [List.getElem?_append_left hi, List.getElem?_eq_getElem hi]
      have hm := hw w[i] (List.getElem_mem hi)
      simp only [Option.map_some', Option.some.injEq, json_is_whitespace]
      rcases hm with e | e | e | e <;> rw [e] <;> decide
    · simp only [json_tokenizer_init]
      rw [List.getElem?_append_right (le_refl _)]
      simp
  rw [json_get_next_token_first hfirst]
  simp [json_tokenizer_init]

/-- Witness for C8: a space, a tab, a newline and a carriage return, then the
sentinel. -/
theorem whitespace_only_eof_witness :
    (∀ c ∈ [32, 9, 10, 13], c = 32 ∨ c = 9 ∨ c = 10 ∨ c = 13) ∧
    json_get_next_token (json_tokenizer_init ([32, 9, 10, 13] ++ [0])) =
      some ({ type := TOKEN_EOF, value := none }, { json := [32, 9, 10, 13] ++ [0], pos := 4 }) :=
  ⟨by decide, whitespace_only_eof [32, 9, 10, 13] [] (by decide)⟩

/-! ## String literals -/

/-- Over a well-formed body followed by a quote or a NUL, the string loop
stops on that byte. -/
theorem string_loop_body {json : List Nat} {body : List Nat} (hb : StringBody body)
    (x : Nat) (hx : x = 34 ∨ x = 0) (rest : List Nat) (p : Nat)
    (h : json.drop p = body ++ x :: rest) :
    string_loop json p = some (p + body.length) := by
  induction hb generalizing p with
  | nil =>
    exact string_loop_stop (getElem?_of_drop_eq_cons h) hx
  | plain c tl h1 h2 h3 _ ih =>
    have hd : json.drop p = c :: (tl ++ x :: rest) := h
    rw [string_loop_next (getElem?_of_drop_eq_cons hd) h1 h2 h3,
      ih (p + 1) (drop_succ_of_drop_eq_cons hd), List.length_cons]
    congr 1; omega
  | escape d tl _ _ ih =>
    have hd : json.drop p = 92 :: d :: (tl ++ x :: rest) := h
    have hd1 := drop_succ_of_drop_eq_cons hd
    have hd2 : json.drop (p + 2) = tl ++ x :: rest := drop_succ_of_drop_eq_cons hd1
    rw [string_loop_esc (getElem?_of_drop_eq_cons hd), ih (p + 2) hd2]
    simp only [List.length_cons]
    congr 1; omega

/-- C1: when the first non-whitespace byte, at index `s`, is a quote and what
follows it is a well-formed body and then a closing quote, the call returns the
string token whose value is the body byte for byte, and leaves the cursor one
byte past the closing quote. -/
theorem string_token_correct (t : JsonTokenizer) (s : Nat) (body rest : List Nat)
    (h : FirstNonWs t s 34) (hb : StringBody body)
    (hd : t.json.drop (s + 1) = body ++ 34 :: rest) :
    json_get_next_token t =
      some ({ type := TOKEN_STRING, value := some body },
        { json := t.json, pos := s + 1 + body.length + 1 }) := by
  rw [json_get_next_token_first h]
  have hloop := string_loop_body hb 34 (Or.inl rfl) rest (s + 1) hd
  have hq : t.json[s + 1 + body.length]? = some 34 :=
    getElem?_of_drop_eq_cons (drop_add_of_drop_eq_append body (34 :: rest) hd)
  have hval : json_strdup_range t.json (s + 1) (s + 1 + body.length - (s + 1)) = body := by
    rw [json_strdup_range, hd, Nat.add_sub_cancel_left, List.take_left]
  simp only [string_case, hloop, hq, hval, if_true]
  rfl

/-- Witness for C1: the input `"ab\"cd"` (quote, a, b, backslash, quote, c, d,
quote) gives the six-byte value `ab\"cd` and the cursor 8. -/
theorem string_token_correct_witness :
    FirstNonWs { json := [34, 97, 98, 92, 34, 99, 100, 34, 0], pos := 0 } 0 34 ∧
    StringBody [97, 98, 92, 34, 99, 100] ∧
    json_get_next_token { json := [34, 97, 98, 92, 34, 99, 100, 34, 0], pos := 0 } =
      some ({ type := TOKEN_STRING, value := some [97, 98, 92, 34, 99, 100] },
        { json := [34, 97, 98, 92, 34, 99, 100, 34, 0], pos := 8 }) :=
  have hb : StringBody [97, 98, 92, 34, 99, 100] :=
    .plain 97 _ (by decide) (by decide) (by decide)
      (.plain 98 _ (by decide) (by decide) (by decide)
        (.escape 34 _ (by decide)
          (.plain 99 _ (by decide) (by decide) (by decide)
            (.plain 100 _ (by decide) (by decide) (by decide) .nil))))
  ⟨by decide, hb,
    string_token_correct { json := [34, 97, 98, 92, 34, 99, 100, 34, 0], pos := 0 } 0
      [97, 98, 92, 34, 99, 100] [0] (by decide) hb rfl⟩

/-! ## Numbers -/

/-- Over a run of digits followed by a byte that is not a digit, the digit loop
stops on that byte. -/
theorem digit_loop_run {json : List Nat} (ds : List Nat) (x : Nat) (r : List Nat) (p : Nat)
    (hds : ∀ d ∈ ds, 48 ≤ d ∧ d ≤ 57) (hx : ¬ (48 ≤ x ∧ x ≤ 57))
    (h : json.drop p = ds ++ x :: r) : digit_loop json p = some (p + ds.length) := by
  induction ds generalizing p with
  | nil => exact digit_loop_stop (getElem?_of_drop_eq_cons h) hx
  | cons a l ih =>
    have hd : json.drop p = a :: (l ++ x :: r) := h
    rw [digit_loop_next (getElem?_of_drop_eq_cons hd) (hds a (List.mem_cons_self _ _)),
      ih (p + 1) (fun d hm => hds d (List.mem_cons_of_mem _ hm)) (drop_succ_of_drop_eq_cons hd),
      List.length_cons]
    congr 1; omega

/-- A list that holds a NUL splits into its leading run of digits and the first
byte that is not a digit. -/
theorem digits_split (l : List Nat) (h0 : 0 ∈ l) :
    ∃ ds x r, l = ds ++ x :: r ∧ (∀ d ∈ ds, 48 ≤ d ∧ d ≤ 57) ∧ ¬ (48 ≤ x ∧ x ≤ 57) ∧
      0 ∈ x :: r := by
  induction l with
  | nil => cases h0
  | cons a l ih =>
    by_cases ha : 48 ≤ a ∧ a ≤ 57
    · have h1 : 0 ∈ l := by
        rcases List.mem_cons.mp h0 with e | e
        · omega
        · exact e
      obtain ⟨ds, x, r, e, hds, hx, hz⟩ := ih h1
      refine ⟨a :: ds, x, r, by rw [e]; rfl, ?_, hx, hz⟩
      intro d hm
      rcases List.mem_cons.mp hm with e1 | e1
      · rw [e1]; exact ha
      · exact hds d e1
    · exact ⟨[], a, l, rfl, fun d hm => absurd hm (List.not_mem_nil d), ha, h0⟩

/-- A run of digits at the front of a list is no longer than the leading digit
run of that list. -/
theorem digit_run_le (D : List Nat) (d : Nat) (r : List Nat) (hd : ¬ (48 ≤ d ∧ d ≤ 57))
    (ds : List Nat) (hds : ∀ x ∈ ds, 48 ≤ x ∧ x ≤ 57) (hp : ds <+: D ++ d :: r) :
    ds.length ≤ D.length := by
  induction D generalizing ds with
  | nil =>
    cases ds with
    | nil => exact le_rfl
    | cons b l =>
      have e : b = d := (List.cons_prefix_cons.mp hp).1
      exact absurd (e ▸ hds b (List.mem_cons_self _ _)) hd
  | cons a D ih =>
    cases ds with
    | nil => exact Nat.zero_le _
    | cons b l =>
      have hp1 : l <+: D ++ d :: r := (List.cons_prefix_cons.mp hp).2
      have := ih l (fun x hm => hds x (List.mem_cons_of_mem _ hm)) hp1
      simp only [List.length_cons]
      omega

/-- A run of digits followed by a byte that is not a digit, at the front of a
list, is the leading digit run of that list and the byte that ends it. -/
theorem digit_run_eq (D : List Nat) (d : Nat) (r : List Nat) (hD : ∀ x ∈ D, 48 ≤ x ∧ x ≤ 57)
    (hd : ¬ (48 ≤ d ∧ d ≤ 57)) (ds : List Nat) (x : Nat) (tl : List Nat) (hds : ∀ y ∈ ds, 48 ≤ y ∧ y ≤ 57)
    (hx : ¬ (48 ≤ x ∧ x ≤ 57)) (hp : ds ++ x :: tl <+: D ++ d :: r) :
    ds.length = D.length ∧ x = d ∧ tl <+: r := by
  induction D generalizing ds with
  | nil =>
    cases ds with
    | nil =>
      have := List.cons_prefix_cons.mp hp
      exact ⟨rfl, this.1, this.2⟩
    | cons b l =>
      have hp1 : b :: (l ++ x :: tl) <+: d :: r := hp
      have e : b = d := (List.cons_prefix_cons.mp hp1).1
      exact absurd (e ▸ hds b (List.mem_cons_self _ _)) hd
  | cons a D ih =>
    cases ds with
    | nil =>
      have hp1 : x :: tl <+: a :: (D ++ d :: r) := hp
      have e : x = a := (List.cons_prefix_cons.mp hp1).1
      exact absurd (e ▸ hD a (List.mem_cons_self _ _)) hx
    | cons b l =>
      have hp1 : b :: (l ++ x :: tl) <+: a :: (D ++ d :: r) := hp
      have hp2 := (List.cons_prefix_cons.mp hp1).2
      obtain ⟨e1, e2, e3⟩ := ih (fun y hm => hD y (List.mem_cons_of_mem _ hm)) l
        (fun y hm => hds y (List.mem_cons_of_mem _ hm)) hp2
      exact ⟨by simp only [List.length_cons, e1], e2, e3⟩

/-- How long a lexeme without sign can be at the front of a list whose leading
digit run is `D`, ended by the byte `d`. -/
theorem unsigned_shape_le (D : List Nat) (d : Nat) (r : List Nat)
    (hD : ∀ x ∈ D, 48 ≤ x ∧ x ≤ 57) (hd : ¬ (48 ≤ d ∧ d ≤ 57))
    (ds frac : List Nat) (hds : ∀ x ∈ ds, 48 ≤ x ∧ x ≤ 57)
    (hfrac : frac = [] ∨ ∃ fs, frac = 46 :: fs ∧ ∀ x ∈ fs, 48 ≤ x ∧ x ≤ 57)
    (hp : ds ++ frac <+: D ++ d :: r) :
    (d ≠ 46 → (ds ++ frac).length ≤ D.length) ∧
    (∀ D2 y r2, r = D2 ++ y :: r2 → ¬ (48 ≤ y ∧ y ≤ 57) →
      (ds ++ frac).length ≤ D.length + 1 + D2.length) := by
  rcases hfrac with e | ⟨fs, e, hfs⟩
  · subst e
    rw [List.append_nil] at hp ⊢
    have := digit_run_le D d r hd ds hds hp
    exact ⟨fun _ => this, fun D2 y r2 _ _ => by omega⟩
  · subst e
    obtain ⟨e1, e2, e3⟩ := digit_run_eq D d r hD hd ds 46 fs hds (by omega) hp
    refine ⟨fun hne => absurd e2.symm hne, ?_⟩
    intro D2 y r2 hr hy
    rw [hr] at e3
    have := digit_run_le D2 y r2 hy fs hfs e3
    simp only [List.length_append, List.length_cons]
    omega

/-- A lexeme of the number shape at the front of the input is a sign-free
lexeme at the front of what follows the sign the scanner consumed, at most one
byte longer when there is a sign. -/
theorem signed_shape_le (sgn inp0 w : List Nat)
    (hsgn : sgn = [45] ∨ (sgn = [] ∧ ∃ c rest, inp0 = c :: rest ∧ 48 ≤ c ∧ c ≤ 57))
    (hp : w <+: sgn ++ inp0) (hw : NumberShape w) :
    ∃ ds frac, (∀ x ∈ ds, 48 ≤ x ∧ x ≤ 57) ∧
      (frac = [] ∨ ∃ fs, frac = 46 :: fs ∧ ∀ x ∈ fs, 48 ≤ x ∧ x ≤ 57) ∧
      ds ++ frac <+: inp0 ∧ w.length ≤ sgn.length + (ds ++ frac).length := by
  obtain ⟨sign, ds, frac, e, hsign, hds, hfrac⟩ := hw
  subst e
  rcases hsgn with e | ⟨e, c, rest, e0, hc⟩
  · subst e
    rcases hsign with e | e
    · subst e
      rw [List.nil_append] at hp ⊢
      cases ds with
      | nil =>
        rcases hfrac with e | ⟨fs, e, _⟩
        · subst e
          exact ⟨[], [], hds, Or.inl rfl, List.nil_prefix, by simp⟩
        · subst e
          have := (List.cons_prefix_cons.mp hp).1
          omega
      | cons a l =>
        have := (List.cons_prefix_cons.mp hp).1
        have := hds a (List.mem_cons_self _ _)
        omega
    · subst e
      have hp1 : ds ++ frac <+: inp0 := by
        have hp0 : 45 :: (ds ++ frac) <+: 45 :: inp0 := by simpa using hp
        exact (List.cons_prefix_cons.mp hp0).2
      exact ⟨ds, frac, hds, hfrac, hp1, by simp; omega⟩
  · subst e e0
    rw [List.nil_append] at hp
    rcases hsign with e | e
    · subst e
      rw [List.nil_append] at hp ⊢
      exact ⟨ds, frac, hds, hfrac, hp, by simp⟩
    · subst e
      have hp0 : 45 :: (ds ++ frac) <+: c :: rest := by simpa using hp
      have := (List.cons_prefix_cons.mp hp0).1
      omega

/-- The number branch over a buffer that, from the cursor, holds the sign the
branch consumes, a run of digits `D` and then the byte `d`: the value is the
sign and the digits, and, when `d` is a dot, the dot and the digit run after it. -/
theorem number_case_run (json : List Nat) (s c : Nat) (sgn D : List Nat) (d : Nat)
    (r : List Nat) (hsgn : (c = 45 ∧ sgn = [45]) ∨ (c ≠ 45 ∧ sgn = []))
    (hdrop : json.drop s = sgn ++ (D ++ d :: r))
    (hD : ∀ x ∈ D, 48 ≤ x ∧ x ≤ 57) (hd : ¬ (48 ≤ d ∧ d ≤ 57)) (hz : 0 ∈ d :: r) :
    ∃ tl, number_case { json := json, pos := s } c =
        some ({ type := TOKEN_NUMBER, value := some (sgn ++ D ++ tl) },
          { json := json, pos := s + (sgn ++ D ++ tl).length }) ∧
      sgn ++ D ++ tl <+: json.drop s ∧
      ((d ≠ 46 ∧ tl = []) ∨
       (d = 46 ∧ ∃ D2 y r2, r = D2 ++ y :: r2 ∧ (∀ x ∈ D2, 48 ≤ x ∧ x ≤ 57) ∧
          ¬ (48 ≤ y ∧ y ≤ 57) ∧ tl = 46 :: D2)) := by
  have hp0 : (if c = 45 then s + 1 else s) = s + sgn.length := by
    rcases hsgn with ⟨e1, e2⟩ | ⟨e1, e2⟩
    · rw [if_pos e1, e2]; rfl
    · rw [if_neg e1, e2]; rfl
  have hdrop0 : json.drop (s + sgn.length) = D ++ d :: r :=
    drop_add_of_drop_eq_append sgn _ hdrop
  have hloop1 := digit_loop_run D d r (s + sgn.length) hD hd hdrop0
  have hdrop1 : json.drop (s + sgn.length + D.length) = d :: r :=
    drop_add_of_drop_eq_append D _ hdrop0
  have hcur1 := getElem?_of_drop_eq_cons hdrop1
  by_cases e : d = 46
  · subst e
    have hz1 : 0 ∈ r := by
      rcases List.mem_cons.mp hz with h | h
      · omega
      · exact h
    obtain ⟨D2, y, r2, hr, hD2, hy, _⟩ := digits_split r hz1
    have hdrop2 : json.drop (s + sgn.length + D.length + 1) = D2 ++ y :: r2 := by
      rw [drop_succ_of_drop_eq_cons hdrop1, hr]
    have hloop2 := digit_loop_run D2 y r2 _ hD2 hy hdrop2
    have hall : json.drop s = (sgn ++ D ++ 46 :: D2) ++ y :: r2 := by
      rw [hdrop, hr]; simp
    have hlen : s + sgn.length + D.length + 1 + D2.length - s = (sgn ++ D ++ 46 :: D2).length := by
      simp only [List.length_append, List.length_cons]; omega
    have hval : json_strdup_range json s (s + sgn.length + D.length + 1 + D2.length - s) =
        sgn ++ D ++ 46 :: D2 := by
      rw [json_strdup_range, hall, hlen, List.take_left]
    have hpos : s + sgn.length + D.length + 1 + D2.length = s + (sgn ++ D ++ 46 :: D2).length := by
      simp only [List.length_append, List.length_cons]; omega
    refine ⟨46 :: D2, ?_, ⟨y :: r2, hall.symm⟩, Or.inr ⟨rfl, D2, y, r2, hr, hD2, hy, rfl⟩⟩
    simp only [number_case, hp0, hloop1, hcur1, if_true, hloop2, hval]
    rw [hpos]
  · have hall : json.drop s = (sgn ++ D) ++ d :: r := by
      rw [hdrop]; simp
    have hlen : s + sgn.length + D.length - s = (sgn ++ D).length := by
      simp only [List.length_append]; omega
    have hval : json_strdup_range json s (s + sgn.length + D.length - s) = sgn ++ D := by
      rw [json_strdup_range, hall, hlen, List.take_left]
    have hpos : s + sgn.length + D.length = s + (sgn ++ D).length := by
      simp only [List.length_append]; omega
    refine ⟨[], ?_, ?_, Or.inl ⟨e, rfl⟩⟩
    · simp only [number_case, hp0, hloop1, hcur1, if_neg e, hval, List.append_nil]
      rw [hpos]
    · rw [List.append_nil]; exact ⟨d :: r, hall.symm⟩

/-- The value the number branch returns has the number shape and no lexeme of
that shape at the front of the input is longer. -/
theorem number_case_longest (json : List Nat) (s c : Nat) (sgn D : List Nat) (d : Nat)
    (r : List Nat) (hsgn : (c = 45 ∧ sgn = [45]) ∨ (c ≠ 45 ∧ sgn = []))
    (hfirst : sgn = [45] ∨ (sgn = [] ∧ ∃ a rest, D ++ d :: r = a :: rest ∧ 48 ≤ a ∧ a ≤ 57))
    (hdrop : json.drop s = sgn ++ (D ++ d :: r))
    (hD : ∀ x ∈ D, 48 ≤ x ∧ x ≤ 57) (hd : ¬ (48 ≤ d ∧ d ≤ 57)) (hz : 0 ∈ d :: r) :
    ∃ v, number_case { json := json, pos := s } c =
        some ({ type := TOKEN_NUMBER, value := some v }, { json := json, pos := s + v.length }) ∧
      v <+: json.drop s ∧ NumberShape v ∧
      ∀ w, w <+: json.drop s → NumberShape w → w.length ≤ v.length := by
  obtain ⟨tl, hres, hpre, hcase⟩ := number_case_run json s c sgn D d r hsgn hdrop hD hd hz
  refine ⟨sgn ++ D ++ tl, hres, hpre, ⟨sgn, D, tl, rfl, ?_, hD, ?_⟩, ?_⟩
  · rcases hsgn with ⟨_, e⟩ | ⟨_, e⟩
    · exact Or.inr e
    · exact Or.inl e
  · rcases hcase with ⟨_, e⟩ | ⟨_, D2, _, _, _, hD2, _, e⟩
    · exact Or.inl e
    · exact Or.inr ⟨D2, e, hD2⟩
  · intro w hw hshape
    rw [hdrop] at hw
    obtain ⟨ds, frac, hds, hfrac, hp, hlen⟩ :=
      signed_shape_le sgn (D ++ d :: r) w hfirst hw hshape
    obtain ⟨ha, hb⟩ := unsigned_shape_le D d r hD hd ds frac hds hfrac hp
    rcases hcase with ⟨hne, e⟩ | ⟨_, D2, y, r2, hr, _, hy, e⟩
    · have := ha hne
      subst e
      simp only [List.length_append, List.length_nil] at hlen this ⊢
      omega
    · have := hb D2 y r2 hr hy
      subst e
      simp only [List.length_append, List.length_cons] at hlen this ⊢
      omega

/-- C4: when the first non-whitespace byte, at index `s`, is a digit or the
minus sign, the call returns the number token; its value is the longest lexeme
at the front of the input at `s` that has the number shape (optional minus,
digits, optionally a dot and digits), and the cursor ends at `s` plus the
length of the value. -/
theorem number_token_correct (t : JsonTokenizer) (s c : Nat) (h : FirstNonWs t s c)
    (hc : (48 ≤ c ∧ c ≤ 57) ∨ c = 45) (hn : NulTerminated t) :
    ∃ v, json_get_next_token t =
        some ({ type := TOKEN_NUMBER, value := some v },
          { json := t.json, pos := s + v.length }) ∧
      v <+: t.json.drop s ∧ NumberShape v ∧
      ∀ w, w <+: t.json.drop s → NumberShape w → w.length ≤ v.length := by
  have hnul := nul_after_first h hn
  have hcur : t.json[s]? = some c := h.2.2.1
  obtain ⟨hlt, hget⟩ := List.getElem?_eq_some_iff.mp hcur
  have hinp : t.json.drop s = c :: t.json.drop (s + 1) := by
    rw [List.drop_eq_getElem_cons hlt, hget]
  have hcall : json_get_next_token t = number_case { json := t.json, pos := s } c := by
    rw [json_get_next_token_first h]
    have h1 : c ≠ 0 := by omega
    have h2 : c ≠ 123 := by omega
    have h3 : c ≠ 125 := by omega
    have h4 : c ≠ 91 := by omega
    have h5 : c ≠ 93 := by omega
    have h6 : c ≠ 58 := by omega
    have h7 : c ≠ 44 := by omega
    have h8 : c ≠ 34 := by omega
    have h9 : c ≠ 116 := by omega
    have h10 : c ≠ 102 := by omega
    have h11 : c ≠ 110 := by omega
    simp only [if_neg h1, if_neg h2, if_neg h3, if_neg h4, if_neg h5, if_neg h6, if_neg h7,
      if_neg h8, if_neg h9, if_neg h10, if_neg h11, if_pos hc]
  rw [hcall]
  by_cases e : c = 45
  · have hz : 0 ∈ t.json.drop (s + 1) := by
      rw [hinp] at hnul
      rcases List.mem_cons.mp hnul with h0 | h0
      · omega
      · exact h0
    obtain ⟨D, d, r, hsplit, hD, hd, hz1⟩ := digits_split _ hz
    refine number_case_longest t.json s c [45] D d r (Or.inl ⟨e, rfl⟩) (Or.inl rfl) ?_ hD hd hz1
    rw [hinp, hsplit, e]; rfl
  · obtain ⟨D, d, r, hsplit, hD, hd, hz1⟩ := digits_split _ hnul
    have hdig : 48 ≤ c ∧ c ≤ 57 := hc.resolve_right e
    refine number_case_longest t.json s c [] D d r (Or.inr ⟨e, rfl⟩)
      (Or.inr ⟨rfl, c, t.json.drop (s + 1), ?_, hdig⟩) ?_ hD hd hz1
    · rw [← hsplit, hinp]
    · rw [hsplit]; rfl

/-- Witness for C4: the inputs `-`, `1.` and `1e5`; the values are `-`, `1.`
and `1`, the last with the cursor left on the `e`. -/
theorem number_token_correct_witness :
    (FirstNonWs { json := [45, 0], pos := 0 } 0 45 ∧ NulTerminated { json := [45, 0], pos := 0 } ∧
      ∃ v, json_get_next_token { json := [45, 0], pos := 0 } =
          some ({ type := TOKEN_NUMBER, value := some v },
            { json := [45, 0], pos := 0 + v.length }) ∧
        v <+: [45, 0] ∧ NumberShape v ∧
        ∀ w, w <+: [45, 0] → NumberShape w → w.length ≤ v.length) ∧
    json_get_next_token { json := [45, 0], pos := 0 } =
      some ({ type := TOKEN_NUMBER, value := some [45] }, { json := [45, 0], pos := 1 }) ∧
    json_get_next_token { json := [49, 46, 0], pos := 0 } =
      some ({ type := TOKEN_NUMBER, value := some [49, 46] },
        { json := [49, 46, 0], pos := 2 }) ∧
    json_get_next_token { json := [49, 101, 53, 0], pos := 0 } =
      some ({ type := TOKEN_NUMBER, value := some [49] },
        { json := [49, 101, 53, 0], pos := 1 }) := by
  refine ⟨⟨by decide, by decide,
    number_token_correct { json := [45, 0], pos := 0 } 0 45 (by decide) (by decide) (by decide)⟩,
    ?_, ?_, ?_⟩
  · rw [json_get_next_token_first (s := 0) (c := 45) (by decide)]
    simp [number_case, digit_loop_stop, json_strdup_range]
  · rw [json_get_next_token_first (s := 0) (c := 49) (by decide)]
    simp [number_case, digit_loop_stop, digit_loop_next, json_strdup_range]
  · rw [json_get_next_token_first (s := 0) (c := 49) (by decide)]
    simp [number_case, digit_loop_stop, digit_loop_next, json_strdup_range]

/-! ## Unterminated strings and the end of the buffer -/

/-- When the opening quote at index `s` is followed by a well-formed body and
then the sentinel, so that the scan stops exactly on the sentinel, the call
returns the error token with no value and leaves the cursor on the sentinel. -/
theorem unterminated_string_error (t : JsonTokenizer) (s : Nat) (body rest : List Nat)
    (h : FirstNonWs t s 34) (hb : StringBody body)
    (hd : t.json.drop (s + 1) = body ++ 0 :: rest) :
    json_get_next_token t =
      some ({ type := TOKEN_ERROR, value := none },
        { json := t.json, pos := s + 1 + body.length }) := by
  rw [json_get_next_token_first h]
  have hloop := string_loop_body hb 0 (Or.inr rfl) rest (s + 1) hd
  have hq : t.json[s + 1 + body.length]? = some 0 :=
    getElem?_of_drop_eq_cons (drop_add_of_drop_eq_append body (0 :: rest) hd)
  simp only [string_case, hloop, hq]
  rfl

/-- C2, the code at the failing input: on the three bytes quote, backslash,
NUL, the string loop steps by 2 from the backslash at index 1, over the
sentinel at index 2, and the next read is at index 3, outside the buffer; the
call does not return the error token with the cursor at 2. -/
theorem unterminated_string_trailing_backslash :
    json_get_next_token { json := [34, 92, 0], pos := 0 } = none ∧
    string_loop [34, 92, 0] 1 = string_loop [34, 92, 0] 3 := by
  constructor
  · rw [json_get_next_token_first (s := 0) (c := 34) (by decide)]
    simp [string_case, string_loop_esc, string_loop_none]
  · exact string_loop_esc rfl

/-- C3, the code at the failing input.  After `json_tokenizer_init` on the
bytes `[`, quote, backslash, NUL (sentinel at index 3) the second call reads
outside the buffer.  When the object holds more bytes after the sentinel, as in
quote, backslash, NUL, `x`, quote, NUL (sentinel at index 2), the first call
returns with the cursor at 5, past the sentinel. -/
theorem cursor_passes_sentinel :
    call_sequence 2 (json_tokenizer_init [91, 34, 92, 0]) = none ∧
    (call_sequence 1 (json_tokenizer_init [34, 92, 0, 120, 34, 0])).map (fun r => r.2.pos) =
      some 5 := by
  have h1 : json_get_next_token { json := [91, 34, 92, 0], pos := 0 } =
      some ({ type := TOKEN_LEFT_BRACKET, value := none }, { json := [91, 34, 92, 0], pos := 1 }) := by
    rw [json_get_next_token_first (s := 0) (c := 91) (by decide)]
    rfl
  have h2 : json_get_next_token { json := [91, 34, 92, 0], pos := 1 } = none := by
    rw [json_get_next_token_first (s := 1) (c := 34) (by decide)]
    simp [string_case, string_loop_esc, string_loop_none]
  have h3 : json_get_next_token { json := [34, 92, 0, 120, 34, 0], pos := 0 } =
      some ({ type := TOKEN_STRING, value := some [92, 0, 120] },
        { json := [34, 92, 0, 120, 34, 0], pos := 5 }) := by
    rw [json_get_next_token_first (s := 0) (c := 34) (by decide)]
    simp [string_case, string_loop_esc, string_loop_next, string_loop_stop, json_strdup_range]
  constructor
  · simp only [call_sequence, json_tokenizer_init, h1, h2]
  · simp only [call_sequence, json_tokenizer_init, h3, Option.map_some']

/-! ## Keywords -/

/-- The comparison succeeds when the literal, which holds no NUL, is what the
buffer holds at `pos`. -/
theorem strncmp_eq_of_match {json : List Nat} (lit : List Nat) (pos : Nat)
    (h0 : 0 ∉ lit) (hm : lit <+: json.drop pos) :
    strncmp_eq json pos lit lit.length = some true := by
  induction lit generalizing pos with
  | nil => rfl
  | cons a l ih =>
    obtain ⟨r, hr⟩ := hm
    have hd : json.drop pos = a :: (l ++ r) := by rw [← hr]; rfl
    have ha : a ≠ 0 := fun e => h0 (by rw [e]; exact List.mem_cons_self _ _)
    have hl : 0 ∉ l := fun e => h0 (List.mem_cons_of_mem _ e)
    simp only [List.length_cons, strncmp_eq, getElem?_of_drop_eq_cons hd, List.headD_cons,
      ne_eq, not_true_eq_false, if_false, ha, List.tail_cons]
    exact ih (pos + 1) hl ⟨r, (drop_succ_of_drop_eq_cons hd).symm⟩

/-- The comparison fails, without reading past the sentinel, when the buffer
holds something else than the literal at `pos`. -/
theorem strncmp_eq_of_mismatch {json : List Nat} (lit : List Nat) (pos : Nat)
    (h0 : 0 ∉ lit) (hn : 0 ∈ json.drop pos) (hm : ¬ lit <+: json.drop pos) :
    strncmp_eq json pos lit lit.length = some false := by
  induction lit generalizing pos with
  | nil => exact absurd (List.nil_prefix) hm
  | cons a l ih =>
    have ha : a ≠ 0 := fun e => h0 (by rw [e]; exact List.mem_cons_self _ _)
    have hl : 0 ∉ l := fun e => h0 (List.mem_cons_of_mem _ e)
    cases hd : json.drop pos with
    | nil => rw [hd] at hn; cases hn
    | cons x r =>
      simp only [List.length_cons, strncmp_eq, getElem?_of_drop_eq_cons hd, List.headD_cons,
        ne_eq, List.tail_cons]
      by_cases e : x = a
      · subst e
        simp only [not_true_eq_false, if_false, ha]
        have hr := drop_succ_of_drop_eq_cons hd
        refine ih (pos + 1) hl ?_ ?_
        · rw [hr]; rw [hd] at hn
          rcases List.mem_cons.mp hn with h | h
          · exact absurd h.symm ha
          · exact h
        · rw [hr]; rw [hd] at hm
          exact fun hp => hm ((List.prefix_cons_inj x).mpr hp)
      · simp only [e, not_false_eq_true, if_true]

/-- A keyword branch on a buffer with a sentinel: the keyword token when the
literal is there, the error token with the cursor unmoved when it is not. -/
theorem keyword_case_correct (json : List Nat) (s : Nat) (lit : List Nat) (ty : JsonTokenType)
    (h0 : 0 ∉ lit) (hn : 0 ∈ json.drop s) :
    (lit <+: json.drop s →
      keyword_case { json := json, pos := s } lit lit.length ty =
        some ({ type := ty, value := none }, { json := json, pos := s + lit.length })) ∧
    (¬ lit <+: json.drop s →
      keyword_case { json := json, pos := s } lit lit.length ty =
        some ({ type := TOKEN_ERROR, value := none }, { json := json, pos := s })) := by
  constructor
  · intro hm
    simp only [keyword_case, strncmp_eq_of_match lit s h0 hm]
  · intro hm
    simp only [keyword_case, strncmp_eq_of_mismatch lit s h0 hn hm]

/-- C5: when the first non-whitespace byte, at index `s`, is `t`, `f` or `n`, the
call returns the token of `true`, `false` or `null`, with the cursor at `s`
plus the literal length, if and only if the bytes at `s` are exactly that
literal (whatever follows it); otherwise it returns the error token with no
value and the cursor at `s`. -/
theorem keyword_token_correct (t : JsonTokenizer) (s c : Nat) (h : FirstNonWs t s c)
    (hn : NulTerminated t) :
    (c = 116 →
      (json_get_next_token t =
          some ({ type := TOKEN_TRUE, value := none }, { json := t.json, pos := s + 4 }) ↔
        [116, 114, 117, 101] <+: t.json.drop s) ∧
      (¬ [116, 114, 117, 101] <+: t.json.drop s →
        json_get_next_token t =
          some ({ type := TOKEN_ERROR, value := none }, { json := t.json, pos := s }))) ∧
    (c = 102 →
      (json_get_next_token t =
          some ({ type := TOKEN_FALSE, value := none }, { json := t.json, pos := s + 5 }) ↔
        [102, 97, 108, 115, 101] <+: t.json.drop s) ∧
      (¬ [102, 97, 108, 115, 101] <+: t.json.drop s →
        json_get_next_token t =
          some ({ type := TOKEN_ERROR, value := none }, { json := t.json, pos := s }))) ∧
    (c = 110 →
      (json_get_next_token t =
          some ({ type := TOKEN_NULL, value := none }, { json := t.json, pos := s + 4 }) ↔
        [110, 117, 108, 108] <+: t.json.drop s) ∧
      (¬ [110, 117, 108, 108] <+: t.json.drop s →
        json_get_next_token t =
          some ({ type := TOKEN_ERROR, value := none }, { json := t.json, pos := s }))) := by
  have hnul := nul_after_first h hn
  have key : ∀ (lit : List Nat) (ty : JsonTokenType), 0 ∉ lit → ty ≠ TOKEN_ERROR →
      json_get_next_token t = keyword_case { json := t.json, pos := s } lit lit.length ty →
      (json_get_next_token t =
          some ({ type := ty, value := none }, { json := t.json, pos := s + lit.length }) ↔
        lit <+: t.json.drop s) ∧
      (¬ lit <+: t.json.drop s →
        json_get_next_token t =
          some ({ type := TOKEN_ERROR, value := none }, { json := t.json, pos := s })) := by
    intro lit ty h0 hty hcall
    obtain ⟨hyes, hno⟩ := keyword_case_correct t.json s lit ty h0 hnul
    refine ⟨⟨?_, fun hm => by rw [hcall, hyes hm]⟩, fun hm => by rw [hcall, hno hm]⟩
    intro hres
    by_contra hm
    rw [hcall, hno hm] at hres
    simp only [Option.some.injEq, Prod.mk.injEq, JsonToken.mk.injEq] at hres
    exact hty hres.1.1.symm
  rw [json_get_next_token_first h] at key
  refine ⟨?_, ?_, ?_⟩
  · intro hc
    rw [json_get_next_token_first h]
    exact key [116, 114, 117, 101] TOKEN_TRUE (by decide) (by decide) (by subst hc; simp)
  · intro hc
    rw [json_get_next_token_first h]
    exact key [102, 97, 108, 115, 101] TOKEN_FALSE (by decide) (by decide) (by subst hc; simp)
  · intro hc
    rw [json_get_next_token_first h]
    exact key [110, 117, 108, 108] TOKEN_NULL (by decide) (by decide) (by subst hc; simp)

/-- Witness for C5: the input `tru` gives the error token with the cursor at 0,
and the input `truex` gives the token of `true` with the cursor at 4. -/
theorem keyword_token_correct_witness :
    FirstNonWs { json := [116, 114, 117, 0], pos := 0 } 0 116 ∧
    NulTerminated { json := [116, 114, 117, 0], pos := 0 } ∧
    json_get_next_token { json := [116, 114, 117, 0], pos := 0 } =
      some ({ type := TOKEN_ERROR, value := none }, { json := [116, 114, 117, 0], pos := 0 }) ∧
    json_get_next_token { json := [116, 114, 117, 101, 120, 0], pos := 0 } =
      some ({ type := TOKEN_TRUE, value := none },
        { json := [116, 114, 117, 101, 120, 0], pos := 4 }) :=
  ⟨by decide, by decide,
    ((keyword_token_correct { json := [116, 114, 117, 0], pos := 0 } 0 116
      (by decide) (by decide)).1 rfl).2 (by decide),
    ((keyword_token_correct { json := [116, 114, 117, 101, 120, 0], pos := 0 } 0 116
      (by decide) (by decide)).1 rfl).1.mpr (by decide)⟩

/-! ## End of input is stable; how the cursor moves -/

/-- C9: from any state in which a call returns the end-of-input token, every
later call returns the end-of-input token again, with no value, and leaves the
state (so the cursor) unchanged: `k` further calls give `k` such tokens. -/
theorem eof_idempotent (t t1 : JsonTokenizer) (tok : JsonToken)
    (h : json_get_next_token t = some (tok, t1)) (he : tok.type = TOKEN_EOF) (k : Nat) :
    call_sequence k t1 =
      some (List.replicate k { type := TOKEN_EOF, value := none }, t1) := by
  obtain ⟨s, c, hf, hj, hcase⟩ := json_get_next_token_some h
  have hzero : t1.json[t1.pos]? = some 0 := by
    rcases hcase with ⟨h0, _, hp⟩ | ⟨_, e, _⟩ | ⟨_, e, _⟩
    · rw [hj, hp, ← h0]; exact hf.2.2.1
    · rw [e] at he; cases he
    · exact absurd he e
  have hfix : json_get_next_token t1 =
      some ({ type := TOKEN_EOF, value := none }, t1) := by
    have hf1 : FirstNonWs t1 t1.pos 0 :=
      ⟨le_rfl, fun i hi hp => absurd hp (by omega), hzero, by decide⟩
    rw [json_get_next_token_first hf1]
    simp
  induction k with
  | zero => rfl
  | succ k ih => simp only [call_sequence, hfix, ih, List.replicate_succ]

/-- Witness for C9: the input `{` followed by the sentinel, with the cursor
after the brace; three further calls. -/
theorem eof_idempotent_witness :
    json_get_next_token { json := [123, 0], pos := 1 } =
      some ({ type := TOKEN_EOF, value := none }, { json := [123, 0], pos := 1 }) ∧
    call_sequence 3 { json := [123, 0], pos := 1 } =
      some (List.replicate 3 { type := TOKEN_EOF, value := none },
        { json := [123, 0], pos := 1 }) :=
  have h0 : json_get_next_token { json := [123, 0], pos := 1 } =
      some ({ type := TOKEN_EOF, value := none }, { json := [123, 0], pos := 1 }) := by
    rw [json_get_next_token_first (s := 1) (c := 0) (by decide)]
    rfl
  ⟨h0, eof_idempotent { json := [123, 0], pos := 1 } { json := [123, 0], pos := 1 }
    { type := TOKEN_EOF, value := none } h0 rfl 3⟩

/-- C10 as amended: a returning call whose token is neither the end of input
nor an error leaves the cursor strictly after where it was; a call that returns
an error never moves the cursor backwards; a call that returns the end of input
has moved the cursor over whitespace only and left it on the sentinel, so the
cursor is unchanged exactly when the call started on the sentinel. -/
theorem cursor_progress (t t1 : JsonTokenizer) (tok : JsonToken)
    (h : json_get_next_token t = some (tok, t1)) :
    (tok.type ≠ TOKEN_EOF → tok.type ≠ TOKEN_ERROR → t.pos < t1.pos) ∧
    (tok.type = TOKEN_ERROR → t.pos ≤ t1.pos) ∧
    (tok.type = TOKEN_EOF →
      FirstNonWs t t1.pos 0 ∧ (t1.pos = t.pos ↔ t.json[t.pos]? = some 0)) := by
  obtain ⟨s, c, hf, hj, hcase⟩ := json_get_next_token_some h
  have hle : t.pos ≤ s := hf.1
  refine ⟨?_, ?_, ?_⟩
  · intro h1 h2
    rcases hcase with ⟨_, e, _⟩ | ⟨_, e, _⟩ | ⟨_, _, _, hp⟩
    · rw [e] at h1; exact absurd rfl h1
    · rw [e] at h2; exact absurd rfl h2
    · omega
  · intro h1
    rcases hcase with ⟨_, e, _⟩ | ⟨_, _, hp⟩ | ⟨_, _, e, _⟩
    · rw [e] at h1; cases h1
    · omega
    · exact absurd h1 e
  · intro h1
    rcases hcase with ⟨h0, _, hp⟩ | ⟨_, e, _⟩ | ⟨_, e, _⟩
    · subst h0
      rw [hp]
      refine ⟨hf, ?_, ?_⟩
      · intro e; rw [← e]; exact hf.2.2.1
      · intro hz
        by_contra hne
        have hws := hf.2.1 t.pos (by omega) le_rfl
        rw [hz] at hws
        simp [json_is_whitespace] at hws
    · rw [e] at h1; cases h1
    · exact absurd h1 e

/-- Witness for C10 as amended: the input of one space followed by the
sentinel, on which the call returns the end of input with the cursor moved from
0 to 1. -/
theorem cursor_progress_witness :
    json_get_next_token { json := [32, 0], pos := 0 } =
      some ({ type := TOKEN_EOF, value := none }, { json := [32, 0], pos := 1 }) ∧
    (TOKEN_EOF = TOKEN_EOF →
      FirstNonWs { json := [32, 0], pos := 0 } 1 0 ∧
      ((1 : Nat) = 0 ↔ ([32, 0] : List Nat)[0]? = some 0)) :=
  have h0 : json_get_next_token { json := [32, 0], pos := 0 } =
      some ({ type := TOKEN_EOF, value := none }, { json := [32, 0], pos := 1 }) := by
    rw [json_get_next_token_first (s := 1) (c := 0) (by decide)]
    rfl
  ⟨h0, (cursor_progress { json := [32, 0], pos := 0 } { json := [32, 0], pos := 1 }
    { type := TOKEN_EOF, value := none } h0).2.2⟩

/-- Counterexample to C10 as stated.  On the input `+` the call returns a token
other than the end of input (the error token) and the cursor is still 0; on the
input of one space the call returns the end of input and the cursor has moved
from 0 to 1. -/
theorem cursor_progress_counterexample :
    ¬ (∀ tok t1, json_get_next_token { json := [43, 0], pos := 0 } = some (tok, t1) →
        tok.type ≠ TOKEN_EOF → 0 < t1.pos) ∧
    ¬ (∀ tok t1, json_get_next_token { json := [32, 0], pos := 0 } = some (tok, t1) →
        tok.type = TOKEN_EOF → t1.pos = 0) := by
  have h1 : json_get_next_token { json := [43, 0], pos := 0 } =
      some ({ type := TOKEN_ERROR, value := none }, { json := [43, 0], pos := 0 }) := by
    rw [json_get_next_token_first (s := 0) (c := 43) (by decide)]
    rfl
  have h2 : json_get_next_token { json := [32, 0], pos := 0 } =
      some ({ type := TOKEN_EOF, value := none }, { json := [32, 0], pos := 1 }) := by
    rw [json_get_next_token_first (s := 1) (c := 0) (by decide)]
    rfl
  constructor
  · intro hall
    exact absurd (hall _ _ h1 (by decide)) (by decide)
  · intro hall
    exact absurd (hall _ _ h2 rfl) (by decide)

/-! ## Reset, release, names of the token kinds -/

/-- C16: `json_tokenizer_reset` on any previous state and a buffer `b` yields
the state `json_tokenizer_init` yields on `b`, with buffer `b` and cursor 0; so
any number of calls after a reset return what they return on a fresh tokenizer,
whatever the earlier buffer and cursor were. -/
theorem reset_eq_init (t : JsonTokenizer) (b : List Nat) :
    json_tokenizer_reset t b = json_tokenizer_init b ∧
    (json_tokenizer_reset t b).json = b ∧ (json_tokenizer_reset t b).pos = 0 ∧
    (∀ k, call_sequence k (json_tokenizer_reset t b) =
      call_sequence k (json_tokenizer_init b)) ∧
    ∀ t2 : JsonTokenizer, json_tokenizer_reset t b = json_tokenizer_reset t2 b := by
  refine ⟨rfl, rfl, rfl, fun k => ?_, fun t2 => rfl⟩
  rw [show json_tokenizer_reset t b = json_tokenizer_init b from rfl]

/-- C17: `json_token_free` leaves the token with no value and the same type,
and a second `json_token_free` changes nothing. -/
theorem token_free_idempotent (token : JsonToken) :
    (json_token_free token).value = none ∧
    (json_token_free token).type = token.type ∧
    json_token_free (json_token_free token) = json_token_free token := by
  obtain ⟨ty, v⟩ := token
  cases v with
  | none => exact ⟨rfl, rfl, rfl⟩
  | some x => exact ⟨rfl, rfl, rfl⟩

/-- The name of an enumerator, whatever the numbering, provided distinct
enumerators have distinct values, as the case labels of a switch must. -/
theorem token_type_name_of_member (code : JsonTokenType → Int)
    (hinj : Function.Injective code) :
    json_token_type_to_string code (code TOKEN_NONE) = "TOKEN_NONE" ∧
    json_token_type_to_string code (code TOKEN_LEFT_BRACE) = "TOKEN_LEFT_BRACE" ∧
    json_token_type_to_string code (code TOKEN_RIGHT_BRACE) = "TOKEN_RIGHT_BRACE" ∧
    json_token_type_to_string code (code TOKEN_LEFT_BRACKET) = "TOKEN_LEFT_BRACKET" ∧
    json_token_type_to_string code (code TOKEN_RIGHT_BRACKET) = "TOKEN_RIGHT_BRACKET" ∧
    json_token_type_to_string code (code TOKEN_COLON) = "TOKEN_COLON" ∧
    json_token_type_to_string code (code TOKEN_COMMA) = "TOKEN_COMMA" ∧
    json_token_type_to_string code (code TOKEN_STRING) = "TOKEN_STRING" ∧
    json_token_type_to_string code (code TOKEN_NUMBER) = "TOKEN_NUMBER" ∧
    json_token_type_to_string code (code TOKEN_TRUE) = "TOKEN_TRUE" ∧
    json_token_type_to_string code (code TOKEN_FALSE) = "TOKEN_FALSE" ∧
    json_token_type_to_string code (code TOKEN_NULL) = "TOKEN_NULL" ∧
    json_token_type_to_string code (code TOKEN_EOF) = "TOKEN_EOF" ∧
    json_token_type_to_string code (code TOKEN_ERROR) = "TOKEN_ERROR" := by
  simp [json_token_type_to_string, hinj.eq_iff]

/-- C18: `json_token_type_to_string` returns, for each of the 14 enumerators,
that enumerator written out; for every value that is not an enumerator it
returns `UNKNOWN_TOKEN`; distinct enumerators get distinct names and none of
them gets `UNKNOWN_TOKEN`.  The numbering `code` of the enumerators is any
numbering with distinct values. -/
theorem token_type_to_string_total (code : JsonTokenType → Int)
    (hinj : Function.Injective code) :
    (json_token_type_to_string code (code TOKEN_NONE) = "TOKEN_NONE" ∧
    json_token_type_to_string code (code TOKEN_LEFT_BRACE) = "TOKEN_LEFT_BRACE" ∧
    json_token_type_to_string code (code TOKEN_RIGHT_BRACE) = "TOKEN_RIGHT_BRACE" ∧
    json_token_type_to_string code (code TOKEN_LEFT_BRACKET) = "TOKEN_LEFT_BRACKET" ∧
    json_token_type_to_string code (code TOKEN_RIGHT_BRACKET) = "TOKEN_RIGHT_BRACKET" ∧
    json_token_type_to_string code (code TOKEN_COLON) = "TOKEN_COLON" ∧
    json_token_type_to_string code (code TOKEN_COMMA) = "TOKEN_COMMA" ∧
    json_token_type_to_string code (code TOKEN_STRING) = "TOKEN_STRING" ∧
    json_token_type_to_string code (code TOKEN_NUMBER) = "TOKEN_NUMBER" ∧
    json_token_type_to_string code (code TOKEN_TRUE) = "TOKEN_TRUE" ∧
    json_token_type_to_string code (code TOKEN_FALSE) = "TOKEN_FALSE" ∧
    json_token_type_to_string code (code TOKEN_NULL) = "TOKEN_NULL" ∧
    json_token_type_to_string code (code TOKEN_EOF) = "TOKEN_EOF" ∧
    json_token_type_to_string code (code TOKEN_ERROR) = "TOKEN_ERROR") ∧
    (∀ v : Int, (∀ m, v ≠ code m) → json_token_type_to_string code v = "UNKNOWN_TOKEN") ∧
    (∀ m1 m2, m1 ≠ m2 →
      json_token_type_to_string code (code m1) ≠ json_token_type_to_string code (code m2)) ∧
    (∀ m, json_token_type_to_string code (code m) ≠ "UNKNOWN_TOKEN") := by
  have hname := token_type_name_of_member code hinj
  obtain ⟨h0, h1, h2, h3, h4, h5, h6, h7, h8, h9, h10, h11, h12, h13⟩ := hname
  refine ⟨⟨h0, h1, h2, h3, h4, h5, h6, h7, h8, h9, h10, h11, h12, h13⟩, ?_, ?_, ?_⟩
  · intro v hv
    simp [json_token_type_to_string, hv]
  · intro m1 m2 hne
    cases m1 <;> cases m2 <;>
      first
      | exact absurd rfl hne
      | (simp only [h0, h1, h2, h3, h4, h5, h6, h7, h8, h9, h10, h11, h12, h13]; decide)
  · intro m
    cases m <;>
      (simp only [h0, h1, h2, h3, h4, h5, h6, h7, h8, h9, h10, h11, h12, h13]; decide)

/-- Witness for C18: the numbering 0 to 13 in the order of the enumeration; the
values -1 and 14 are not enumerators. -/
theorem token_type_to_string_total_witness :
    Function.Injective enum_order ∧
    (json_token_type_to_string enum_order 0 = "TOKEN_NONE" ∧
    json_token_type_to_string enum_order 1 = "TOKEN_LEFT_BRACE" ∧
    json_token_type_to_string enum_order 2 = "TOKEN_RIGHT_BRACE" ∧
    json_token_type_to_string enum_order 3 = "TOKEN_LEFT_BRACKET" ∧
    json_token_type_to_string enum_order 4 = "TOKEN_RIGHT_BRACKET" ∧
    json_token_type_to_string enum_order 5 = "TOKEN_COLON" ∧
    json_token_type_to_string enum_order 6 = "TOKEN_COMMA" ∧
    json_token_type_to_string enum_order 7 = "TOKEN_STRING" ∧
    json_token_type_to_string enum_order 8 = "TOKEN_NUMBER" ∧
    json_token_type_to_string enum_order 9 = "TOKEN_TRUE" ∧
    json_token_type_to_string enum_order 10 = "TOKEN_FALSE" ∧
    json_token_type_to_string enum_order 11 = "TOKEN_NULL" ∧
    json_token_type_to_string enum_order 12 = "TOKEN_EOF" ∧
    json_token_type_to_string enum_order 13 = "TOKEN_ERROR") ∧
    json_token_type_to_string enum_order 14 = "UNKNOWN_TOKEN" ∧
    json_token_type_to_string enum_order (-1) = "UNKNOWN_TOKEN" := by
  have hinj : Function.Injective enum_order := by
    intro a b h
    cases a <;> cases b <;> first | rfl | (exact absurd h (by decide))
  have hall := token_type_to_string_total enum_order hinj
  refine ⟨hinj, hall.1, hall.2.1 14 ?_, hall.2.1 (-1) ?_⟩
  · intro m; cases m <;> decide
  · intro m; cases m <;> decide

/-! ## The branches of a returning call -/

/-- The first non-whitespace byte from a cursor is unique. -/
theorem firstNonWs_unique {t : JsonTokenizer} {s c s2 c2 : Nat} (h : FirstNonWs t s c)
    (h2 : FirstNonWs t s2 c2) : s = s2 ∧ c = c2 := by
  have e := (skip_whitespace_first h).symm.trans (skip_whitespace_first h2)
  simp only [Option.some.injEq, JsonTokenizer.mk.injEq, true_and] at e
  subst e
  have e2 := h.2.2.1.symm.trans h2.2.2.1
  simp only [Option.some.injEq] at e2
  exact ⟨rfl, e2⟩

/-- Which branch of the switch a returning call took, by the first
non-whitespace byte `c` at index `s`: the end of input, a structural character,
the string branch, a keyword branch, the number branch, or an unrecognized byte. -/
theorem json_get_next_token_cases {t t1 : JsonTokenizer} {tok : JsonToken}
    (h : json_get_next_token t = some (tok, t1)) :
    ∃ s c, FirstNonWs t s c ∧
      ((c = 0 ∧ tok = { type := TOKEN_EOF, value := none } ∧ t1 = { json := t.json, pos := s }) ∨
       ((c, tok.type) ∈ [(123, TOKEN_LEFT_BRACE), (125, TOKEN_RIGHT_BRACE),
            (91, TOKEN_LEFT_BRACKET), (93, TOKEN_RIGHT_BRACKET), (58, TOKEN_COLON),
            (44, TOKEN_COMMA)] ∧
          tok.value = none ∧ t1 = { json := t.json, pos := s + 1 }) ∨
       (c = 34 ∧ string_case { json := t.json, pos := s } = some (tok, t1)) ∨
       (∃ lit ty, (c, lit, ty) ∈ [(116, [116, 114, 117, 101], TOKEN_TRUE),
            (102, [102, 97, 108, 115, 101], TOKEN_FALSE), (110, [110, 117, 108, 108], TOKEN_NULL)] ∧
          keyword_case { json := t.json, pos := s } lit lit.length ty = some (tok, t1)) ∨
       (((48 ≤ c ∧ c ≤ 57) ∨ c = 45) ∧
          number_case { json := t.json, pos := s } c = some (tok, t1)) ∨
       (c ≠ 0 ∧ c ≠ 34 ∧ tok = { type := TOKEN_ERROR, value := none } ∧
          t1 = { json := t.json, pos := s })) := by
  cases hs : skip_whitespace t with
  | none => rw [json_get_next_token, hs] at h; cases h
  | some t0 =>
    obtain ⟨_, c, hf⟩ := skip_whitespace_some hs
    rw [json_get_next_token_first hf] at h
    refine ⟨t0.pos, c, hf, ?_⟩
    by_cases h0 : c = 0
    · rw [if_pos h0] at h; cases h; exact Or.inl ⟨h0, rfl, rfl⟩
    rw [if_neg h0] at h
    by_cases h123 : c = 123
    · rw [if_pos h123] at h; cases h
      exact Or.inr (Or.inl ⟨by simp [h123], rfl, rfl⟩)
    rw [if_neg h123] at h
    by_cases h125 : c = 125
    · rw [if_pos h125] at h; cases h
      exact Or.inr (Or.inl ⟨by simp [h125], rfl, rfl⟩)
    rw [if_neg h125] at h
    by_cases h91 : c = 91
    · rw [if_pos h91] at h; cases h
      exact Or.inr (Or.inl ⟨by simp [h91], rfl, rfl⟩)
    rw [if_neg h91] at h
    by_cases h93 : c = 93
    · rw [if_pos h93] at h; cases h
      exact Or.inr (Or.inl ⟨by simp [h93], rfl, rfl⟩)
    rw [if_neg h93] at h
    by_cases h58 : c = 58
    · rw [if_pos h58] at h; cases h
      exact Or.inr (Or.inl ⟨by simp [h58], rfl, rfl⟩)
    rw [if_neg h58] at h
    by_cases h44 : c = 44
    · rw [if_pos h44] at h; cases h
      exact Or.inr (Or.inl ⟨by simp [h44], rfl, rfl⟩)
    rw [if_neg h44] at h
    by_cases h34 : c = 34
    · rw [if_pos h34] at h
      exact Or.inr (Or.inr (Or.inl ⟨h34, h⟩))
    rw [if_neg h34] at h
    by_cases h116 : c = 116
    · rw [if_pos h116] at h
      exact Or.inr (Or.inr (Or.inr (Or.inl ⟨[116, 114, 117, 101], TOKEN_TRUE, by simp [h116], h⟩)))
    rw [if_neg h116] at h
    by_cases h102 : c = 102
    · rw [if_pos h102] at h
      exact Or.inr (Or.inr (Or.inr (Or.inl ⟨[102, 97, 108, 115, 101], TOKEN_FALSE, by simp [h102], h⟩)))
    rw [if_neg h102] at h
    by_cases h110 : c = 110
    · rw [if_pos h110] at h
      exact Or.inr (Or.inr (Or.inr (Or.inl ⟨[110, 117, 108, 108], TOKEN_NULL, by simp [h110], h⟩)))
    rw [if_neg h110] at h
    by_cases hnum : (48 ≤ c ∧ c ≤ 57) ∨ c = 45
    · rw [if_pos hnum] at h
      exact Or.inr (Or.inr (Or.inr (Or.inr (Or.inl ⟨hnum, h⟩))))
    rw [if_neg hnum] at h
    cases h
    exact Or.inr (Or.inr (Or.inr (Or.inr (Or.inr ⟨h0, h34, rfl, rfl⟩))))

/-! ## Byte ranges -/

theorem byte_range_at_front (json : List Nat) (a b : Nat) :
    byte_range json a b <+: json.drop a :=
  List.take_prefix _ _

theorem byte_range_length {json : List Nat} {a b : Nat} (hab : a ≤ b) (hb : b ≤ json.length) :
    (byte_range json a b).length = b - a := by
  simp only [byte_range, List.length_take, List.length_drop]
  omega

theorem byte_range_self (json : List Nat) (a : Nat) : byte_range json a a = [] := by
  simp [byte_range]

theorem byte_range_append {json : List Nat} {a b c : Nat} (hab : a ≤ b) (hbc : b ≤ c) :
    byte_range json a b ++ byte_range json b c = byte_range json a c := by
  have e : c - a = (b - a) + (c - b) := by omega
  have e2 : a + (b - a) = b := by omega
  simp only [byte_range]
  rw [e, List.take_add, List.drop_drop, e2]

theorem drop_eq_byte_range_append {json : List Nat} {a b : Nat} (hab : a ≤ b) :
    json.drop a = byte_range json a b ++ json.drop b := by
  have e2 : a + (b - a) = b := by omega
  have := (List.take_append_drop (b - a) (json.drop a)).symm
  rw [List.drop_drop, e2] at this
  exact this

theorem drop_eq_cons_of_getElem? {json : List Nat} {p x : Nat} (h : json[p]? = some x) :
    json.drop p = x :: json.drop (p + 1) := by
  obtain ⟨hlt, hget⟩ := List.getElem?_eq_some_iff.mp h
  rw [List.drop_eq_getElem_cons hlt, hget]

/-- The bytes between the cursor and the first non-whitespace byte are all
whitespace. -/
theorem byte_range_whitespace {t : JsonTokenizer} {s c : Nat} (h : FirstNonWs t s c) :
    ∀ x ∈ byte_range t.json t.pos s, json_is_whitespace x = true := by
  intro x hx
  obtain ⟨i, hi⟩ := List.mem_iff_getElem?.mp hx
  simp only [byte_range, List.getElem?_take, List.getElem?_drop] at hi
  split at hi
  · rename_i hlt
    have := h.2.1 (t.pos + i) (by have := h.1; omega) (Nat.le_add_right _ _)
    rw [hi] at this
    simpa using this
  · cases hi

/-! ## The branches in detail -/

/-- The digit loop stops on a readable byte that is not a digit. -/
theorem digit_loop_some {json : List Nat} {p q : Nat} (h : digit_loop json p = some q) :
    ∃ b, json[q]? = some b ∧ ¬ (48 ≤ b ∧ b ≤ 57) := by
  generalize hk : json.length - p = k
  induction k using Nat.strong_induction_on generalizing p with
  | _ k ih =>
    rw [digit_loop_eq] at h
    cases hd : json[p]? with
    | none => rw [hd] at h; cases h
    | some d =>
      have hlt : p < json.length := (List.getElem?_eq_some_iff.mp hd).1
      rw [hd] at h
      simp only at h
      split at h
      · exact ih (json.length - (p + 1)) (by omega) h rfl
      · rename_i hnd
        cases h; exact ⟨d, hd, hnd⟩

/-- The string loop stops on a readable byte that is a quote or a NUL. -/
theorem string_loop_some {json : List Nat} {p q : Nat} (h : string_loop json p = some q) :
    ∃ b, json[q]? = some b ∧ (b = 34 ∨ b = 0) := by
  generalize hk : json.length - p = k
  induction k using Nat.strong_induction_on generalizing p with
  | _ k ih =>
    rw [string_loop_eq] at h
    cases hd : json[p]? with
    | none => rw [hd] at h; cases h
    | some d =>
      have hlt : p < json.length := (List.getElem?_eq_some_iff.mp hd).1
      rw [hd] at h
      simp only at h
      split at h
      · split at h
        · exact ih (json.length - (p + 2)) (by omega) h rfl
        · exact ih (json.length - (p + 1)) (by omega) h rfl
      · rename_i hstop
        cases h
        refine ⟨d, hd, ?_⟩
        by_cases e : d = 34
        · exact Or.inl e
        · by_cases e0 : d = 0
          · exact Or.inr e0
          · exact absurd ⟨e, e0⟩ hstop

/-- A successful comparison means the literal is what the buffer holds. -/
theorem strncmp_eq_true {json : List Nat} (lit : List Nat) (pos : Nat) (h0 : 0 ∉ lit)
    (h : strncmp_eq json pos lit lit.length = some true) : lit <+: json.drop pos := by
  induction lit generalizing pos with
  | nil => exact List.nil_prefix
  | cons a l ih =>
    have ha : a ≠ 0 := fun e => h0 (by rw [e]; exact List.mem_cons_self _ _)
    have hl : 0 ∉ l := fun e => h0 (List.mem_cons_of_mem _ e)
    simp only [List.length_cons, strncmp_eq, List.headD_cons, ne_eq, List.tail_cons] at h
    cases hd : json[pos]? with
    | none => rw [hd] at h; cases h
    | some x =>
      rw [hd] at h
      simp only at h
      by_cases e : x = a
      · subst e
        simp only [not_true_eq_false, if_false, ha] at h
        rw [drop_eq_cons_of_getElem? hd]
        exact (List.prefix_cons_inj x).mpr (ih (pos + 1) hl h)
      · simp only [e, not_false_eq_true, if_true] at h
        cases h

/-- The string branch in detail: the loop stops at some index `p` after the
opening quote; on a quote the token is the string whose value is the bytes in
between and the cursor goes past the quote, on a NUL the token is the error and
the cursor stays on the NUL. -/
theorem string_case_spec {json : List Nat} {s : Nat} {tok : JsonToken} {t1 : JsonTokenizer}
    (h : string_case { json := json, pos := s } = some (tok, t1)) :
    ∃ p, s + 1 ≤ p ∧
      ((json[p]? = some 34 ∧
          tok = { type := TOKEN_STRING, value := some (byte_range json (s + 1) p) } ∧
          t1 = { json := json, pos := p + 1 }) ∨
       (json[p]? = some 0 ∧ tok = { type := TOKEN_ERROR, value := none } ∧
          t1 = { json := json, pos := p })) := by
  unfold string_case at h
  simp only at h
  cases hl : string_loop json (s + 1) with
  | none => rw [hl] at h; cases h
  | some p =>
    have hge := string_loop_ge hl
    obtain ⟨b, hb, hb2⟩ := string_loop_some hl
    rw [hl] at h
    simp only [hb] at h
    refine ⟨p, hge, ?_⟩
    rcases hb2 with e | e
    · subst e
      simp only [if_true, Option.some.injEq, Prod.mk.injEq] at h
      exact Or.inl ⟨hb, h.1.symm, h.2.symm⟩
    · subst e
      simp only [show ¬ ((0 : Nat) = 34) by decide, if_false, Option.some.injEq,
        Prod.mk.injEq] at h
      exact Or.inr ⟨hb, h.1.symm, h.2.symm⟩

/-- The number branch in detail: the scan stops at some index `p` after the
first byte, on a readable byte; the value is the bytes from the first byte up
to `p`, where the cursor is left. -/
theorem number_case_spec {json : List Nat} {s c : Nat} {tok : JsonToken} {t1 : JsonTokenizer}
    (hc : json[s]? = some c) (hcur : (48 ≤ c ∧ c ≤ 57) ∨ c = 45)
    (h : number_case { json := json, pos := s } c = some (tok, t1)) :
    ∃ p b, s < p ∧ json[p]? = some b ∧
      tok = { type := TOKEN_NUMBER, value := some (byte_range json s p) } ∧
      t1 = { json := json, pos := p } := by
  unfold number_case at h
  simp only at h
  cases hl : digit_loop json (if c = 45 then s + 1 else s) with
  | none => rw [hl] at h; cases h
  | some p1 =>
    have hp1 : s < p1 := by
      by_cases e : c = 45
      · rw [if_pos e] at hl
        have := digit_loop_ge hl
        omega
      · rw [if_neg e] at hl
        have hdig : 48 ≤ c ∧ c ≤ 57 := hcur.resolve_right e
        rw [digit_loop_next hc hdig] at hl
        have := digit_loop_ge hl
        omega
    obtain ⟨d, hd, _⟩ := digit_loop_some hl
    rw [hl] at h
    simp only [hd] at h
    by_cases e : d = 46
    · rw [if_pos e] at h
      cases hl2 : digit_loop json (p1 + 1) with
      | none => rw [hl2] at h; cases h
      | some p2 =>
        have := digit_loop_ge hl2
        obtain ⟨b, hb, _⟩ := digit_loop_some hl2
        rw [hl2] at h
        simp only [Option.some.injEq, Prod.mk.injEq] at h
        exact ⟨p2, b, by omega, hb, h.1.symm, h.2.symm⟩
    · rw [if_neg e] at h
      simp only [Option.some.injEq, Prod.mk.injEq] at h
      exact ⟨p1, d, hp1, hd, h.1.symm, h.2.symm⟩

/-- A keyword branch in detail: the keyword token when the literal is at the
cursor, which then moves by its length; otherwise the error token and the same
state. -/
theorem keyword_case_spec {json : List Nat} {s : Nat} {lit : List Nat} {ty : JsonTokenType}
    {tok : JsonToken} {t1 : JsonTokenizer} (h0 : 0 ∉ lit)
    (h : keyword_case { json := json, pos := s } lit lit.length ty = some (tok, t1)) :
    (lit <+: json.drop s ∧ tok = { type := ty, value := none } ∧
        t1 = { json := json, pos := s + lit.length }) ∨
    (tok = { type := TOKEN_ERROR, value := none } ∧ t1 = { json := json, pos := s }) := by
  unfold keyword_case at h
  cases hcmp : strncmp_eq json s lit lit.length with
  | none => simp only [hcmp] at h; cases h
  | some r =>
    cases r with
    | true =>
      simp only [hcmp, Option.some.injEq, Prod.mk.injEq] at h
      exact Or.inl ⟨strncmp_eq_true lit s h0 hcmp, h.1.symm, h.2.symm⟩
    | false =>
      simp only [hcmp, Option.some.injEq, Prod.mk.injEq] at h
      exact Or.inr ⟨h.1.symm, h.2.symm⟩

/-- What a returning call that does not report an error has consumed after the
whitespace: exactly the lexeme of the token it returns, which stands in the
buffer at the first non-whitespace byte, the cursor ending right after it. -/
theorem call_lexeme {t t1 : JsonTokenizer} {tok : JsonToken}
    (h : json_get_next_token t = some (tok, t1)) (hne : tok.type ≠ TOKEN_ERROR) :
    ∃ s c, FirstNonWs t s c ∧ t1.json = t.json ∧ lexeme tok <+: t.json.drop s ∧
      t1.pos = s + (lexeme tok).length := by
  obtain ⟨s, c, hf, hcase⟩ := json_get_next_token_cases h
  have hcur : t.json[s]? = some c := hf.2.2.1
  refine ⟨s, c, hf, ?_⟩
  rcases hcase with ⟨_, e, e1⟩ | ⟨hm, hv, e1⟩ | ⟨e34, hs⟩ | ⟨lit, ty, hm, hk⟩ | ⟨hnum, hn⟩ |
    ⟨_, _, e, _⟩
  · subst e e1
    exact ⟨rfl, List.nil_prefix, rfl⟩
  · subst e1
    have hone : [c] <+: t.json.drop s :=
      ⟨t.json.drop (s + 1), by rw [drop_eq_cons_of_getElem? hcur]; rfl⟩
    simp only [List.mem_cons, Prod.mk.injEq, List.mem_singleton, List.not_mem_nil,
      or_false] at hm
    have hlex : lexeme tok = [c] := by
      rcases hm with ⟨ec, e⟩ | ⟨ec, e⟩ | ⟨ec, e⟩ | ⟨ec, e⟩ | ⟨ec, e⟩ | ⟨ec, e⟩ <;>
        simp [lexeme, e, ec]
    rw [hlex]
    exact ⟨rfl, hone, rfl⟩
  · subst e34
    obtain ⟨p, hp, hres⟩ := string_case_spec hs
    rcases hres with ⟨hq, etok, et1⟩ | ⟨_, etok, _⟩
    · subst etok et1
      have hplt : p < t.json.length := (List.getElem?_eq_some_iff.mp hq).1
      have hlen : (byte_range t.json (s + 1) p).length = p - (s + 1) :=
        byte_range_length hp (le_of_lt hplt)
      have hlex : lexeme { type := TOKEN_STRING, value := some (byte_range t.json (s + 1) p) } =
          34 :: (byte_range t.json (s + 1) p ++ [34]) := rfl
      rw [hlex]
      refine ⟨rfl, ⟨t.json.drop (p + 1), ?_⟩, ?_⟩
      · rw [drop_eq_cons_of_getElem? hcur, drop_eq_byte_range_append hp,
          drop_eq_cons_of_getElem? hq]
        simp
      · simp only [List.length_cons, List.length_append, List.length_nil, hlen]
        omega
    · subst etok
      exact absurd rfl hne
  · simp only [List.mem_cons, Prod.mk.injEq, List.mem_singleton, List.not_mem_nil,
      or_false] at hm
    have h0 : 0 ∉ lit := by
      rcases hm with ⟨_, e, _⟩ | ⟨_, e, _⟩ | ⟨_, e, _⟩ <;> subst e <;> decide
    rcases keyword_case_spec h0 hk with ⟨hpre, etok, et1⟩ | ⟨etok, _⟩
    · subst etok et1
      have hlex : lexeme { type := ty, value := none } = lit := by
        rcases hm with ⟨_, e, ety⟩ | ⟨_, e, ety⟩ | ⟨_, e, ety⟩ <;> subst e ety <;> rfl
      rw [hlex]
      exact ⟨rfl, hpre, rfl⟩
    · subst etok
      exact absurd rfl hne
  · obtain ⟨p, b, hp, hb, etok, et1⟩ := number_case_spec hcur hnum hn
    subst etok et1
    have hplt : p < t.json.length := (List.getElem?_eq_some_iff.mp hb).1
    have hlen : (byte_range t.json s p).length = p - s :=
      byte_range_length (le_of_lt hp) (le_of_lt hplt)
    have hlex : lexeme { type := TOKEN_NUMBER, value := some (byte_range t.json s p) } =
        byte_range t.json s p := rfl
    rw [hlex]
    refine ⟨rfl, byte_range_at_front _ _ _, ?_⟩
    simp only [hlen]
    omega
  · subst e
    exact absurd rfl hne

/-- The range a returning call that does not report an error has consumed is a
run of whitespace followed by the lexeme of the token; the cursor does not move
backwards and stays within the buffer. -/
theorem call_range {t t1 : JsonTokenizer} {tok : JsonToken}
    (h : json_get_next_token t = some (tok, t1)) (hne : tok.type ≠ TOKEN_ERROR) :
    t1.json = t.json ∧ t.pos ≤ t1.pos ∧ t1.pos ≤ t.json.length ∧
    ∃ ws, (∀ x ∈ ws, json_is_whitespace x = true) ∧
      byte_range t.json t.pos t1.pos = ws ++ lexeme tok := by
  obtain ⟨s, c, hf, hj, hpre, hpos⟩ := call_lexeme h hne
  have hs : s < t.json.length := (List.getElem?_eq_some_iff.mp hf.2.2.1).1
  have hlenle := hpre.length_le
  rw [List.length_drop] at hlenle
  have hle : s ≤ t1.pos := by omega
  refine ⟨hj, le_trans hf.1 hle, by omega, byte_range t.json t.pos s,
    byte_range_whitespace hf, ?_⟩
  rw [← byte_range_append hf.1 hle]
  congr 1
  have e : t1.pos - s = (lexeme tok).length := by omega
  rw [byte_range, e]
  exact (List.prefix_iff_eq_take.mp hpre).symm

/-! ## The ranges consumed by successive calls -/

/-- A call that returns the end of input leaves the cursor on a NUL. -/
theorem eof_on_nul {t t1 : JsonTokenizer} {tok : JsonToken}
    (h : json_get_next_token t = some (tok, t1)) (he : tok.type = TOKEN_EOF) :
    t.json[t1.pos]? = some 0 := by
  obtain ⟨s, c, hf, _, hcase⟩ := json_get_next_token_some h
  rcases hcase with ⟨h0, _, hp⟩ | ⟨_, e, _⟩ | ⟨_, e, _⟩
  · rw [hp, ← h0]; exact hf.2.2.1
  · rw [e] at he; cases he
  · exact absurd he e

/-- In a buffer that ends with its sentinel and holds no other NUL, a NUL is at
the index of the sentinel. -/
theorem nul_index_of_strict {body : List Nat} (h0 : 0 ∉ body) {q : Nat}
    (hq : (body ++ [0])[q]? = some 0) : q = body.length := by
  by_cases hlt : q < body.length
  · rw [List.getElem?_append_left hlt] at hq
    exact absurd (List.mem_iff_getElem?.mpr ⟨q, hq⟩) h0
  · have hlen := (List.getElem?_eq_some_iff.mp hq).1
    simp only [List.length_append, List.length_singleton] at hlen
    omega

/-- Successive calls none of which reports an error consume contiguous ranges,
from the cursor up to some index `q`; the ranges put together
are the bytes from the cursor to `q`, each range is whitespace followed by the
lexeme of its token, and `q` is on a NUL when the last token is the end of input. -/
theorem trace_ranges (k : Nat) (t : JsonTokenizer) (tr : List (JsonToken × Nat × Nat))
    (htr : call_trace k t = some tr) (hnoerr : ∀ e ∈ tr, e.1.type ≠ TOKEN_ERROR) :
    ∃ q, t.pos ≤ q ∧ (tr = [] → q = t.pos) ∧
      (∀ e, tr.head? = some e → e.2.1 = t.pos) ∧
      (∀ e, tr.getLast? = some e →
        e.2.2 = q ∧ (e.1.type = TOKEN_EOF → t.json[q]? = some 0)) ∧
      List.Chain' (fun e1 e2 => e1.2.2 = e2.2.1) tr ∧
      (tr.map (fun e => byte_range t.json e.2.1 e.2.2)).flatten = byte_range t.json t.pos q ∧
      ∀ e ∈ tr, ∃ ws, (∀ x ∈ ws, json_is_whitespace x = true) ∧
        byte_range t.json e.2.1 e.2.2 = ws ++ lexeme e.1 := by
  induction k generalizing t tr with
  | zero =>
    simp only [call_trace, Option.some.injEq] at htr
    subst htr
    refine ⟨t.pos, le_rfl, fun _ => rfl, ?_, ?_, List.chain'_nil, ?_, ?_⟩
    · intro e he; cases he
    · intro e he; cases he
    · simp [byte_range_self]
    · intro e he; cases he
  | succ k ih =>
    simp only [call_trace] at htr
    cases hcall : json_get_next_token t with
    | none => rw [hcall] at htr; cases htr
    | some r =>
      obtain ⟨tok, t1⟩ := r
      rw [hcall] at htr
      simp only at htr
      cases hrest : call_trace k t1 with
      | none => rw [hrest] at htr; cases htr
      | some rest =>
        rw [hrest] at htr
        simp only [Option.some.injEq] at htr
        subst htr
        have hne : tok.type ≠ TOKEN_ERROR := hnoerr _ (List.mem_cons_self _ _)
        obtain ⟨hj, hle, hlen, ws, hws, hrange⟩ := call_range hcall hne
        obtain ⟨q, hq1, hq3, hhead, hlast, hchain, hflat, hall⟩ :=
          ih t1 rest hrest (fun e he => hnoerr e (List.mem_cons_of_mem _ he))
        rw [hj] at hlast hflat hall
        refine ⟨q, le_trans hle hq1, fun e => absurd e (List.cons_ne_nil _ _), ?_, ?_, ?_, ?_, ?_⟩
        · intro e he
          simp only [List.head?_cons, Option.some.injEq] at he
          subst he; rfl
        · intro e he
          cases rest with
          | nil =>
            simp only [List.getLast?_singleton, Option.some.injEq] at he
            subst he
            have hq : q = t1.pos := hq3 rfl
            subst hq
            exact ⟨rfl, fun hty => eof_on_nul hcall hty⟩
          | cons e2 rest2 =>
            rw [List.getLast?_cons_cons] at he
            exact hlast e he
        · rw [List.chain'_cons']
          refine ⟨?_, hchain⟩
          intro y hy
          exact (hhead y hy).symm
        · simp only [List.map_cons, List.flatten_cons, hflat]
          exact byte_range_append hle hq1
        · intro e he
          rcases List.mem_cons.mp he with e1 | e1
          · subst e1; exact ⟨ws, hws, hrange⟩
          · exact hall e e1

/-- The trace records the calls of `call_sequence`: the same tokens, in order. -/
theorem call_trace_tokens (k : Nat) (t : JsonTokenizer) (tr : List (JsonToken × Nat × Nat))
    (htr : call_trace k t = some tr) :
    ∃ t1, call_sequence k t = some (tr.map (fun e => e.1), t1) := by
  induction k generalizing t tr with
  | zero =>
    simp only [call_trace, Option.some.injEq] at htr
    subst htr
    exact ⟨t, rfl⟩
  | succ k ih =>
    simp only [call_trace] at htr
    cases hcall : json_get_next_token t with
    | none => rw [hcall] at htr; cases htr
    | some r =>
      obtain ⟨tok, t2⟩ := r
      rw [hcall] at htr
      simp only at htr
      cases hrest : call_trace k t2 with
      | none => rw [hrest] at htr; cases htr
      | some rest =>
        rw [hrest] at htr
        simp only [Option.some.injEq] at htr
        subst htr
        obtain ⟨t1, h1⟩ := ih t2 rest hrest
        exact ⟨t1, by simp only [call_sequence, hcall, h1, List.map_cons]⟩

/-- The round trip on a buffer that ends with its sentinel.  On a buffer of the
bytes `body`, none of them a NUL, followed by the sentinel and nothing else,
let `k` calls from `json_tokenizer_init` return no error token and end with
the end of input.  Then the ranges the calls consume start at 0 and
are contiguous, put together they are exactly `body`, and the range of each
token is a run of whitespace followed by the lexeme of the token: the
structural character, the keyword literal, the number value, or the string
value between two quotes (nothing for the end of input). -/
theorem consumed_ranges_roundtrip (body : List Nat) (h0 : 0 ∉ body) (k : Nat)
    (tr : List (JsonToken × Nat × Nat))
    (htr : call_trace k (json_tokenizer_init (body ++ [0])) = some tr)
    (hnoerr : ∀ e ∈ tr, e.1.type ≠ TOKEN_ERROR)
    (heof : ∃ e, tr.getLast? = some e ∧ e.1.type = TOKEN_EOF) :
    (∀ e, tr.head? = some e → e.2.1 = 0) ∧
    List.Chain' (fun e1 e2 => e1.2.2 = e2.2.1) tr ∧
    (tr.map (fun e => byte_range (body ++ [0]) e.2.1 e.2.2)).flatten = body ∧
    ∀ e ∈ tr, ∃ ws, (∀ x ∈ ws, json_is_whitespace x = true) ∧
      byte_range (body ++ [0]) e.2.1 e.2.2 = ws ++ lexeme e.1 := by
  obtain ⟨q, _, _, hhead, hlast, hchain, hflat, hall⟩ :=
    trace_ranges k (json_tokenizer_init (body ++ [0])) tr htr hnoerr
  obtain ⟨e, he, hty⟩ := heof
  have hq : q = body.length := nul_index_of_strict h0 ((hlast e he).2 hty)
  subst hq
  refine ⟨hhead, hchain, ?_, hall⟩
  simp only [json_tokenizer_init] at hflat
  rw [hflat]
  simp [byte_range]

/-- The round trip on the input `[ 1]`, with a space before the digit; four
calls consume the ranges from 0 to 1, 1 to 3, 3 to 4 and 4 to 4. -/
theorem consumed_ranges_roundtrip_example :
    call_trace 4 (json_tokenizer_init ([91, 32, 49, 93] ++ [0])) =
      some [({ type := TOKEN_LEFT_BRACKET, value := none }, 0, 1),
        ({ type := TOKEN_NUMBER, value := some [49] }, 1, 3),
        ({ type := TOKEN_RIGHT_BRACKET, value := none }, 3, 4),
        ({ type := TOKEN_EOF, value := none }, 4, 4)] ∧
    ([byte_range ([91, 32, 49, 93] ++ [0]) 0 1, byte_range ([91, 32, 49, 93] ++ [0]) 1 3,
      byte_range ([91, 32, 49, 93] ++ [0]) 3 4,
      byte_range ([91, 32, 49, 93] ++ [0]) 4 4].flatten = [91, 32, 49, 93]) := by
  have htr : call_trace 4 (json_tokenizer_init ([91, 32, 49, 93] ++ [0])) =
      some [({ type := TOKEN_LEFT_BRACKET, value := none }, 0, 1),
        ({ type := TOKEN_NUMBER, value := some [49] }, 1, 3),
        ({ type := TOKEN_RIGHT_BRACKET, value := none }, 3, 4),
        ({ type := TOKEN_EOF, value := none }, 4, 4)] := by
    simp [call_trace, json_tokenizer_init, json_get_next_token, number_case,
      skip_whitespace_stop, skip_whitespace_ws, json_is_whitespace,
      digit_loop_next, digit_loop_stop, json_strdup_range]
  exact ⟨htr, (consumed_ranges_roundtrip [91, 32, 49, 93] (by decide) 4 _ htr (by decide)
    ⟨_, rfl, rfl⟩).2.2.1⟩

/-! ## Staying before the sentinel; how many calls a caller makes -/

/-- A readable byte of a buffer that ends with its sentinel is at or before the
sentinel, and strictly before it when it is not a NUL. -/
theorem index_le_of_strict {body : List Nat} {q b : Nat} (hq : (body ++ [0])[q]? = some b) :
    q ≤ body.length ∧ (b ≠ 0 → q < body.length) := by
  have hlen := (List.getElem?_eq_some_iff.mp hq).1
  simp only [List.length_append, List.length_singleton] at hlen
  refine ⟨by omega, fun hb => ?_⟩
  by_contra hge
  have e : q = body.length := by omega
  subst e
  rw [List.getElem?_append_right (le_refl _)] at hq
  simp at hq
  exact hb hq.symm

/-- A run of bytes without NUL that stands in the buffer at `s` ends at or
before the sentinel. -/
theorem front_le_of_strict {body w : List Nat} {s : Nat} (hs : s ≤ body.length)
    (hw : w <+: (body ++ [0]).drop s) (h0 : 0 ∉ w) : s + w.length ≤ body.length := by
  cases hwl : w.length with
  | zero => omega
  | succ m =>
    obtain ⟨r, hr⟩ := hw
    have hlt : m < w.length := by omega
    have hget : (body ++ [0])[s + m]? = some w[m] := by
      rw [← List.getElem?_drop, ← hr, List.getElem?_append_left hlt,
        List.getElem?_eq_getElem hlt]
    have hne : w[m] ≠ 0 := fun e => h0 (e ▸ List.getElem_mem hlt)
    have := (index_le_of_strict hget).2 hne
    omega

/-- In a buffer that ends with its sentinel, a returning call leaves the cursor
at or before the sentinel. -/
theorem call_pos_le_sentinel {body : List Nat} {t t1 : JsonTokenizer} {tok : JsonToken}
    (hj : t.json = body ++ [0]) (h : json_get_next_token t = some (tok, t1)) :
    t1.json = body ++ [0] ∧ t1.pos ≤ body.length := by
  obtain ⟨s, c, hf, hcase⟩ := json_get_next_token_cases h
  have hcur : (body ++ [0])[s]? = some c := hj ▸ hf.2.2.1
  have hs := index_le_of_strict hcur
  rw [hj] at hcase
  rcases hcase with ⟨_, _, e1⟩ | ⟨hm, _, e1⟩ | ⟨_, hs1⟩ | ⟨lit, ty, hm, hk⟩ | ⟨hnum, hn⟩ |
    ⟨_, _, _, e1⟩
  · subst e1; exact ⟨rfl, hs.1⟩
  · subst e1
    simp only [List.mem_cons, Prod.mk.injEq, List.mem_singleton, List.not_mem_nil,
      or_false] at hm
    have hc : c ≠ 0 := by
      rcases hm with ⟨e, _⟩ | ⟨e, _⟩ | ⟨e, _⟩ | ⟨e, _⟩ | ⟨e, _⟩ | ⟨e, _⟩ <;> omega
    exact ⟨rfl, hs.2 hc⟩
  · obtain ⟨p, _, hres⟩ := string_case_spec hs1
    rcases hres with ⟨hq, _, e1⟩ | ⟨hq, _, e1⟩
    · subst e1
      exact ⟨rfl, (index_le_of_strict hq).2 (by decide)⟩
    · subst e1
      exact ⟨rfl, (index_le_of_strict hq).1⟩
  · simp only [List.mem_cons, Prod.mk.injEq, List.mem_singleton, List.not_mem_nil,
      or_false] at hm
    have h0 : 0 ∉ lit := by
      rcases hm with ⟨_, e, _⟩ | ⟨_, e, _⟩ | ⟨_, e, _⟩ <;> subst e <;> decide
    rcases keyword_case_spec h0 hk with ⟨hpre, _, e1⟩ | ⟨_, e1⟩
    · subst e1
      exact ⟨rfl, front_le_of_strict hs.1 hpre h0⟩
    · subst e1
      exact ⟨rfl, hs.1⟩
  · obtain ⟨p, b, _, hb, _, e1⟩ := number_case_spec hcur hnum hn
    subst e1
    exact ⟨rfl, (index_le_of_strict hb).1⟩
  · subst e1; exact ⟨rfl, hs.1⟩

theorem call_sequence_length {k : Nat} {t t1 : JsonTokenizer} {toks : List JsonToken}
    (h : call_sequence k t = some (toks, t1)) : toks.length = k := by
  induction k generalizing t t1 toks with
  | zero =>
    simp only [call_sequence, Option.some.injEq, Prod.mk.injEq] at h
    rw [← h.1]; rfl
  | succ k ih =>
    simp only [call_sequence] at h
    cases hcall : json_get_next_token t with
    | none => rw [hcall] at h; cases h
    | some r =>
      obtain ⟨tok, t2⟩ := r
      rw [hcall] at h
      simp only at h
      cases hrest : call_sequence k t2 with
      | none => rw [hrest] at h; cases h
      | some r2 =>
        obtain ⟨toks2, t3⟩ := r2
        rw [hrest] at h
        simp only [Option.some.injEq, Prod.mk.injEq] at h
        rw [← h.1, List.length_cons, ih hrest]

/-- In a buffer that ends with its sentinel, a caller whose calls all but the
last returned a token other than the end of input and the error has made at
most as many calls as there are bytes from the cursor to the sentinel, plus one. -/
theorem calls_from_cursor_bounded {body : List Nat} (k : Nat) (t t1 : JsonTokenizer)
    (toks : List JsonToken) (hj : t.json = body ++ [0]) (hp : t.pos ≤ body.length)
    (h : call_sequence k t = some (toks, t1))
    (hproper : ∀ tok ∈ toks.dropLast, tok.type ≠ TOKEN_EOF ∧ tok.type ≠ TOKEN_ERROR) :
    k ≤ body.length - t.pos + 1 := by
  induction k generalizing t t1 toks with
  | zero => omega
  | succ k ih =>
    simp only [call_sequence] at h
    cases hcall : json_get_next_token t with
    | none => rw [hcall] at h; cases h
    | some r =>
      obtain ⟨tok, t2⟩ := r
      rw [hcall] at h
      simp only at h
      cases hrest : call_sequence k t2 with
      | none => rw [hrest] at h; cases h
      | some r2 =>
        obtain ⟨toks2, t3⟩ := r2
        rw [hrest] at h
        simp only [Option.some.injEq, Prod.mk.injEq] at h
        obtain ⟨htoks, _⟩ := h
        subst htoks
        have hlen := call_sequence_length hrest
        cases k with
        | zero => omega
        | succ k2 =>
          have hne : toks2 ≠ [] := by
            intro e; rw [e] at hlen; cases hlen
          rw [List.dropLast_cons_of_ne_nil hne] at hproper
          obtain ⟨h1, h2⟩ := hproper tok (List.mem_cons_self _ _)
          obtain ⟨hj2, hp2⟩ := call_pos_le_sentinel hj hcall
          obtain ⟨s, c, hf, _, hcase⟩ := json_get_next_token_some hcall
          have hadv : t.pos < t2.pos := by
            have := hf.1
            rcases hcase with ⟨_, e, _⟩ | ⟨_, e, _⟩ | ⟨_, _, _, hlt⟩
            · rw [e] at h1; exact absurd rfl h1
            · rw [e] at h2; exact absurd rfl h2
            · omega
          have := ih t2 t3 toks2 hj2 hp2 hrest
            (fun tk htk => hproper tk (List.mem_cons_of_mem _ htk))
          omega

/-- The bound on the calls of a caller, on a buffer that ends with its sentinel.
A returning call whose token is neither the end of input nor the error
leaves the cursor strictly after where it was; hence, on a buffer of the bytes
`body` (none of them a NUL) followed by the sentinel and nothing else, which
is then at index `body.length`, a caller that goes on from `json_tokenizer_init` only while the
token is neither the end of input nor the error makes at most
`body.length + 1` calls. -/
theorem caller_loop_bounded (body : List Nat) (h0 : 0 ∉ body) :
    (∀ (t t1 : JsonTokenizer) (tok : JsonToken), json_get_next_token t = some (tok, t1) →
      tok.type ≠ TOKEN_EOF → tok.type ≠ TOKEN_ERROR → t.pos < t1.pos) ∧
    (∀ i, (body ++ [0])[i]? = some 0 ↔ i = body.length) ∧
    (∀ (k : Nat) (toks : List JsonToken) (t1 : JsonTokenizer),
      call_sequence k (json_tokenizer_init (body ++ [0])) = some (toks, t1) →
      (∀ tok ∈ toks.dropLast, tok.type ≠ TOKEN_EOF ∧ tok.type ≠ TOKEN_ERROR) →
      k ≤ body.length + 1) := by
  refine ⟨fun t t1 tok h h1 h2 => ?_, fun i => ⟨fun hi => nul_index_of_strict h0 hi, fun e => ?_⟩,
    fun k toks t1 h hproper => ?_⟩
  · obtain ⟨s, c, hf, _, hcase⟩ := json_get_next_token_some h
    have := hf.1
    rcases hcase with ⟨_, e, _⟩ | ⟨_, e, _⟩ | ⟨_, _, _, hlt⟩
    · rw [e] at h1; exact absurd rfl h1
    · rw [e] at h2; exact absurd rfl h2
    · omega
  · subst e
    rw [List.getElem?_append_right (le_refl _)]
    simp
  · have : k ≤ body.length - (json_tokenizer_init (body ++ [0])).pos + 1 :=
      calls_from_cursor_bounded k (json_tokenizer_init (body ++ [0])) t1
        toks rfl (Nat.zero_le _) h hproper
    simpa [json_tokenizer_init] using this

/-- The bound on the input `[1]`, three bytes before the sentinel; the
caller makes four calls, the last returning the end of input. -/
theorem caller_loop_bounded_example :
    (0 ∉ [91, 49, 93]) ∧
    call_sequence 4 (json_tokenizer_init ([91, 49, 93] ++ [0])) =
      some ([{ type := TOKEN_LEFT_BRACKET, value := none },
          { type := TOKEN_NUMBER, value := some [49] },
          { type := TOKEN_RIGHT_BRACKET, value := none },
          { type := TOKEN_EOF, value := none }],
        { json := [91, 49, 93] ++ [0], pos := 3 }) ∧
    4 ≤ [91, 49, 93].length + 1 := by
  have hseq : call_sequence 4 (json_tokenizer_init ([91, 49, 93] ++ [0])) =
      some ([{ type := TOKEN_LEFT_BRACKET, value := none },
          { type := TOKEN_NUMBER, value := some [49] },
          { type := TOKEN_RIGHT_BRACKET, value := none },
          { type := TOKEN_EOF, value := none }],
        { json := [91, 49, 93] ++ [0], pos := 3 }) := by
    simp [call_sequence, json_tokenizer_init, json_get_next_token, number_case,
      skip_whitespace_stop, json_is_whitespace, digit_loop_next, digit_loop_stop,
      json_strdup_range]
  exact ⟨by decide, hseq,
    (caller_loop_bounded [91, 49, 93] (by decide)).2.2 4 _ _ hseq (by decide)⟩

/-! ## Whether a call returns -/

/-- From a cursor with a NUL at or after it, there is a first non-whitespace
byte: the whitespace loop ends inside the buffer. -/
theorem firstNonWs_exists (t : JsonTokenizer) (hn : NulTerminated t) :
    ∃ s c, FirstNonWs t s c := by
  obtain ⟨json, pos⟩ := t
  unfold NulTerminated at hn
  simp only at hn
  generalize hl : json.drop pos = l at hn
  induction l generalizing pos with
  | nil => cases hn
  | cons x r ih =>
    have hx : json[pos]? = some x := getElem?_of_drop_eq_cons hl
    cases hw : json_is_whitespace x with
    | false => exact ⟨pos, x, le_rfl, fun i hi hp => absurd hp (by simp only; omega), hx, hw⟩
    | true =>
      have hx0 : x ≠ 0 := by
        intro e; rw [e] at hw; exact absurd hw (by decide)
      have hr : 0 ∈ r := by
        rcases List.mem_cons.mp hn with e | e
        · exact absurd e.symm hx0
        · exact e
      obtain ⟨s, c, hle, hws, hs, hc⟩ := ih (pos + 1) (drop_succ_of_drop_eq_cons hl) hr
      simp only at hle hws hs
      refine ⟨s, c, by simp only; omega, ?_, hs, hc⟩
      intro i hi hp
      simp only at hp ⊢
      by_cases e : i = pos
      · subst e; rw [hx]; simp [hw]
      · exact hws i hi (by omega)

/-- On a NUL-terminated buffer every branch but the string branch returns a
token: when the first non-whitespace byte is not a quote, the call returns. -/
theorem call_returns_outside_strings (t : JsonTokenizer) (hn : NulTerminated t) :
    ∃ s c, FirstNonWs t s c ∧
      (c ≠ 34 → ∃ tok t1, json_get_next_token t = some (tok, t1)) := by
  obtain ⟨s, c, hf⟩ := firstNonWs_exists t hn
  refine ⟨s, c, hf, fun h34 => ?_⟩
  have hnul := nul_after_first hf hn
  have hcur : t.json[s]? = some c := hf.2.2.1
  rw [json_get_next_token_first hf]
  by_cases h0 : c = 0
  · rw [if_pos h0]; exact ⟨_, _, rfl⟩
  rw [if_neg h0]
  by_cases h1 : c = 123
  · rw [if_pos h1]; exact ⟨_, _, rfl⟩
  rw [if_neg h1]
  by_cases h2 : c = 125
  · rw [if_pos h2]; exact ⟨_, _, rfl⟩
  rw [if_neg h2]
  by_cases h3 : c = 91
  · rw [if_pos h3]; exact ⟨_, _, rfl⟩
  rw [if_neg h3]
  by_cases h4 : c = 93
  · rw [if_pos h4]; exact ⟨_, _, rfl⟩
  rw [if_neg h4]
  by_cases h5 : c = 58
  · rw [if_pos h5]; exact ⟨_, _, rfl⟩
  rw [if_neg h5]
  by_cases h6 : c = 44
  · rw [if_pos h6]; exact ⟨_, _, rfl⟩
  rw [if_neg h6, if_neg h34]
  have hkw : ∀ (lit : List Nat) (ty : JsonTokenType), 0 ∉ lit →
      ∃ tok t1, keyword_case { json := t.json, pos := s } lit lit.length ty = some (tok, t1) := by
    intro lit ty hl
    obtain ⟨hyes, hno⟩ := keyword_case_correct t.json s lit ty hl hnul
    by_cases hm : lit <+: t.json.drop s
    · exact ⟨_, _, hyes hm⟩
    · exact ⟨_, _, hno hm⟩
  by_cases h7 : c = 116
  · rw [if_pos h7]; exact hkw [116, 114, 117, 101] TOKEN_TRUE (by decide)
  rw [if_neg h7]
  by_cases h8 : c = 102
  · rw [if_pos h8]; exact hkw [102, 97, 108, 115, 101] TOKEN_FALSE (by decide)
  rw [if_neg h8]
  by_cases h9 : c = 110
  · rw [if_pos h9]; exact hkw [110, 117, 108, 108] TOKEN_NULL (by decide)
  rw [if_neg h9]
  by_cases hnum : (48 ≤ c ∧ c ≤ 57) ∨ c = 45
  · rw [if_pos hnum]
    have hinp := drop_eq_cons_of_getElem? hcur
    by_cases e : c = 45
    · have hz : 0 ∈ t.json.drop (s + 1) := by
        rw [hinp] at hnul
        rcases List.mem_cons.mp hnul with h | h
        · exact absurd h.symm h0
        · exact h
      obtain ⟨D, d, r, hsplit, hD, hd, hz1⟩ := digits_split _ hz
      obtain ⟨v, hv, _⟩ := number_case_longest t.json s c [45] D d r (Or.inl ⟨e, rfl⟩)
        (Or.inl rfl) (by rw [hinp, hsplit, e]; rfl) hD hd hz1
      exact ⟨_, _, hv⟩
    · obtain ⟨D, d, r, hsplit, hD, hd, hz1⟩ := digits_split _ hnul
      have hdig : 48 ≤ c ∧ c ≤ 57 := hnum.resolve_right e
      obtain ⟨v, hv, _⟩ := number_case_longest t.json s c [] D d r (Or.inr ⟨e, rfl⟩)
        (Or.inr ⟨rfl, c, t.json.drop (s + 1), by rw [← hsplit, hinp], hdig⟩)
        (by rw [hsplit]; rfl) hD hd hz1
      exact ⟨_, _, hv⟩
  · rw [if_neg hnum]; exact ⟨_, _, rfl⟩

/-- C15, the code at the failing input: on the NUL-terminated buffer of a
space, a quote, `a`, a backslash and the sentinel, with the cursor at 0, the
string loop steps by 2 from the backslash at index 3, over the sentinel at
index 4, and the call reads outside the buffer instead of returning a token. -/
theorem call_does_not_return :
    NulTerminated { json := [32, 34, 97, 92, 0], pos := 0 } ∧
    json_get_next_token { json := [32, 34, 97, 92, 0], pos := 0 } = none ∧
    ¬ ∃ tok t1, json_get_next_token { json := [32, 34, 97, 92, 0], pos := 0 } = some (tok, t1) := by
  have h : json_get_next_token { json := [32, 34, 97, 92, 0], pos := 0 } = none := by
    rw [json_get_next_token_first (s := 1) (c := 34) (by decide)]
    simp [string_case, string_loop_next, string_loop_esc, string_loop_none]
  refine ⟨by decide, h, ?_⟩
  rintro ⟨tok, t1, h1⟩
  rw [h] at h1
  cases h1

/-! ## Past the sentinel: the round trip and the bound on the calls -/

/-- C12, the code at the failing input.  The buffer is quote, backslash, NUL,
`x`, quote, NUL: the sentinel is at index 2 and the bytes before it are quote,
backslash.  From `json_tokenizer_init` the first call returns a string token
with the cursor going from 0 to 5, the string loop having stepped over the
sentinel, and the second call returns the end of input: no error token, yet
the consumed ranges put together are five bytes, not the two before the
sentinel. -/
theorem ranges_overrun_sentinel :
    (call_trace 2 (json_tokenizer_init [34, 92, 0, 120, 34, 0])).map
        (fun tr => tr.map (fun e => (e.1.type, e.2.1, e.2.2))) =
      some [(TOKEN_STRING, 0, 5), (TOKEN_EOF, 5, 5)] ∧
    ([34, 92, 0, 120, 34, 0] : List Nat)[2]? = some 0 ∧
    (0 : Nat) ∉ byte_range [34, 92, 0, 120, 34, 0] 0 2 ∧
    [byte_range [34, 92, 0, 120, 34, 0] 0 5, byte_range [34, 92, 0, 120, 34, 0] 5 5].flatten =
      [34, 92, 0, 120, 34] ∧
    [byte_range [34, 92, 0, 120, 34, 0] 0 5, byte_range [34, 92, 0, 120, 34, 0] 5 5].flatten ≠
      byte_range [34, 92, 0, 120, 34, 0] 0 2 := by
  have h1 : json_get_next_token { json := [34, 92, 0, 120, 34, 0], pos := 0 } =
      some ({ type := TOKEN_STRING, value := some [92, 0, 120] },
        { json := [34, 92, 0, 120, 34, 0], pos := 5 }) := by
    rw [json_get_next_token_first (s := 0) (c := 34) (by decide)]
    simp [string_case, string_loop_esc, string_loop_next, string_loop_stop, json_strdup_range]
  have h2 : json_get_next_token { json := [34, 92, 0, 120, 34, 0], pos := 5 } =
      some ({ type := TOKEN_EOF, value := none },
        { json := [34, 92, 0, 120, 34, 0], pos := 5 }) := by
    rw [json_get_next_token_first (s := 5) (c := 0) (by decide)]
    rfl
  refine ⟨?_, by decide, by decide, by decide, by decide⟩
  simp only [call_trace, json_tokenizer_init, h1, h2, Option.map_some', List.map_cons,
    List.map_nil]

/-- C19, the code at the failing input.  The buffer is quote, backslash, NUL,
quote, `1`, space, `1`, NUL: the sentinel is at index 2, so two bytes precede
it.  From `json_tokenizer_init` the calls return a string token (the string
loop having stepped over the sentinel), a number token, a number token and the
end of input: the caller makes four calls, more than the three the bound
allows. -/
theorem caller_loop_exceeds_bound :
    (call_sequence 4 (json_tokenizer_init [34, 92, 0, 34, 49, 32, 49, 0])).map
        (fun r => (r.1.map (fun tok => tok.type), r.2.pos)) =
      some ([TOKEN_STRING, TOKEN_NUMBER, TOKEN_NUMBER, TOKEN_EOF], 7) ∧
    ([34, 92, 0, 34, 49, 32, 49, 0] : List Nat)[2]? = some 0 ∧
    (0 : Nat) ∉ byte_range [34, 92, 0, 34, 49, 32, 49, 0] 0 2 ∧
    ¬ (4 ≤ (byte_range [34, 92, 0, 34, 49, 32, 49, 0] 0 2).length + 1) := by
  have h1 : json_get_next_token { json := [34, 92, 0, 34, 49, 32, 49, 0], pos := 0 } =
      some ({ type := TOKEN_STRING, value := some [92, 0] },
        { json := [34, 92, 0, 34, 49, 32, 49, 0], pos := 4 }) := by
    rw [json_get_next_token_first (s := 0) (c := 34) (by decide)]
    simp [string_case, string_loop_esc, string_loop_stop, json_strdup_range]
  have h2 : json_get_next_token { json := [34, 92, 0, 34, 49, 32, 49, 0], pos := 4 } =
      some ({ type := TOKEN_NUMBER, value := some [49] },
        { json := [34, 92, 0, 34, 49, 32, 49, 0], pos := 5 }) := by
    rw [json_get_next_token_first (s := 4) (c := 49) (by decide)]
    simp [number_case, digit_loop_next, digit_loop_stop, json_strdup_range]
  have h3 : json_get_next_token { json := [34, 92, 0, 34, 49, 32, 49, 0], pos := 5 } =
      some ({ type := TOKEN_NUMBER, value := some [49] },
        { json := [34, 92, 0, 34, 49, 32, 49, 0], pos := 7 }) := by
    rw [json_get_next_token_first (s := 6) (c := 49) (by decide)]
    simp [number_case, digit_loop_next, digit_loop_stop, json_strdup_range]
  have h4 : json_get_next_token { json := [34, 92, 0, 34, 49, 32, 49, 0], pos := 7 } =
      some ({ type := TOKEN_EOF, value := none },
        { json := [34, 92, 0, 34, 49, 32, 49, 0], pos := 7 }) := by
    rw [json_get_next_token_first (s := 7) (c := 0) (by decide)]
    rfl
  refine ⟨?_, by decide, by decide, by decide⟩
  simp only [call_sequence, json_tokenizer_init, h1, h2, h3, h4, Option.map_some',
    List.map_cons, List.map_nil]

/-! ## Values go with the kind -/

/-- C11: the token a call returns carries a value if and only if it is a string
token or a number token; in particular an error token carries none. -/
theorem value_iff_string_or_number (t t1 : JsonTokenizer) (tok : JsonToken)
    (h : json_get_next_token t = some (tok, t1)) :
    (tok.value ≠ none ↔ tok.type = TOKEN_STRING ∨ tok.type = TOKEN_NUMBER) ∧
    (tok.type = TOKEN_ERROR → tok.value = none) := by
  obtain ⟨s, c, hf, hcase⟩ := json_get_next_token_cases h
  rcases hcase with ⟨_, e, _⟩ | ⟨hm, hv, _⟩ | ⟨_, hs⟩ | ⟨lit, ty, hm, hk⟩ | ⟨hnum, hn⟩ |
    ⟨_, _, e, _⟩
  · subst e; simp
  · simp only [List.mem_cons, Prod.mk.injEq, List.mem_singleton, List.not_mem_nil,
      or_false] at hm
    rcases hm with ⟨_, e⟩ | ⟨_, e⟩ | ⟨_, e⟩ | ⟨_, e⟩ | ⟨_, e⟩ | ⟨_, e⟩ <;> simp [hv, e]
  · obtain ⟨_, _, hty⟩ := string_case_some hs
    rcases hty with ⟨e, ev⟩ | ⟨e, ev⟩
    · simp [e, ev]
    · simp [e, ev]
  · simp only [List.mem_cons, Prod.mk.injEq, List.mem_singleton, List.not_mem_nil,
      or_false] at hm
    rcases keyword_case_some hk with ⟨e1, _⟩ | ⟨e1, _⟩
    · subst e1
      rcases hm with ⟨_, _, e⟩ | ⟨_, _, e⟩ | ⟨_, _, e⟩ <;> simp [e]
    · subst e1; simp
  · obtain ⟨_, _, hty, hv⟩ :=
      number_case_some (t := { json := t.json, pos := s }) hf.2.2.1 hnum hn
    simp [hty, hv]
  · subst e; simp

/-- Witness for C11: the input `7` gives a number token with the value `7`. -/
theorem value_iff_string_or_number_witness :
    json_get_next_token { json := [55, 0], pos := 0 } =
      some ({ type := TOKEN_NUMBER, value := some [55] }, { json := [55, 0], pos := 1 }) ∧
    ((some [55] : Option (List Nat)) ≠ none ↔
      TOKEN_NUMBER = TOKEN_STRING ∨ TOKEN_NUMBER = TOKEN_NUMBER) :=
  have h0 : json_get_next_token { json := [55, 0], pos := 0 } =
      some ({ type := TOKEN_NUMBER, value := some [55] }, { json := [55, 0], pos := 1 }) := by
    rw [json_get_next_token_first (s := 0) (c := 55) (by decide)]
    simp [number_case, digit_loop_stop, digit_loop_next, json_strdup_range]
  ⟨h0, (value_iff_string_or_number { json := [55, 0], pos := 0 } { json := [55, 0], pos := 1 }
    { type := TOKEN_NUMBER, value := some [55] } h0).1⟩

/-! ## After an error -/

/-- C13: when a call returns the error token and the first non-whitespace byte
is not a quote (the error comes from an unrecognized byte or from a keyword
that does not match), the cursor is left on that byte and every later call
returns the error token again and leaves the state unchanged: `k` further calls
give `k` error tokens. -/
theorem error_repeats (t t1 : JsonTokenizer) (tok : JsonToken) (s c : Nat)
    (hf : FirstNonWs t s c) (hc : c ≠ 34)
    (h : json_get_next_token t = some (tok, t1)) (he : tok.type = TOKEN_ERROR) (k : Nat) :
    t1 = { json := t.json, pos := s } ∧
    call_sequence k t1 =
      some (List.replicate k { type := TOKEN_ERROR, value := none }, t1) := by
  obtain ⟨s2, c2, hf2, hcase⟩ := json_get_next_token_cases h
  obtain ⟨es, ec⟩ := firstNonWs_unique hf2 hf
  subst es ec
  have hstate : tok = { type := TOKEN_ERROR, value := none } ∧
      t1 = { json := t.json, pos := s2 } := by
    rcases hcase with ⟨_, e, _⟩ | ⟨hm, _, _⟩ | ⟨e, _⟩ | ⟨lit, ty, hm, hk⟩ | ⟨hnum, hn⟩ |
      ⟨_, _, e, e1⟩
    · rw [e] at he; cases he
    · simp only [List.mem_cons, Prod.mk.injEq, List.mem_singleton, List.not_mem_nil,
        or_false] at hm
      rw [he] at hm
      simp at hm
    · exact absurd e hc
    · simp only [List.mem_cons, Prod.mk.injEq, List.mem_singleton, List.not_mem_nil,
        or_false] at hm
      rcases keyword_case_some hk with ⟨e1, _⟩ | ⟨e1, e2⟩
      · subst e1
        simp only at he
        rw [he] at hm
        simp at hm
      · exact ⟨e1, e2⟩
    · obtain ⟨_, _, hty, _⟩ :=
        number_case_some (t := { json := t.json, pos := s2 }) hf.2.2.1 hnum hn
      rw [he] at hty; cases hty
    · exact ⟨e, e1⟩
  obtain ⟨etok, et1⟩ := hstate
  subst etok et1
  have hf1 : FirstNonWs { json := t.json, pos := s2 } s2 c2 :=
    ⟨le_rfl, fun i hi hp => absurd hp (by simp only; omega), hf.2.2.1, hf.2.2.2⟩
  have hfix : json_get_next_token { json := t.json, pos := s2 } =
      some ({ type := TOKEN_ERROR, value := none }, { json := t.json, pos := s2 }) := by
    rw [json_get_next_token_first hf1, ← json_get_next_token_first hf]
    exact h
  refine ⟨rfl, ?_⟩
  induction k with
  | zero => rfl
  | succ k ih => simp only [call_sequence, hfix, ih, List.replicate_succ]

/-- Witness for C13: the input `tru` and the input `+`; three further calls
after the first error. -/
theorem error_repeats_witness :
    (json_get_next_token { json := [116, 114, 117, 0], pos := 0 } =
      some ({ type := TOKEN_ERROR, value := none }, { json := [116, 114, 117, 0], pos := 0 }) ∧
     call_sequence 3 { json := [116, 114, 117, 0], pos := 0 } =
      some (List.replicate 3 { type := TOKEN_ERROR, value := none },
        { json := [116, 114, 117, 0], pos := 0 })) ∧
    (json_get_next_token { json := [32, 43, 0], pos := 0 } =
      some ({ type := TOKEN_ERROR, value := none }, { json := [32, 43, 0], pos := 1 }) ∧
     call_sequence 3 { json := [32, 43, 0], pos := 1 } =
      some (List.replicate 3 { type := TOKEN_ERROR, value := none },
        { json := [32, 43, 0], pos := 1 })) := by
  have h1 : json_get_next_token { json := [116, 114, 117, 0], pos := 0 } =
      some ({ type := TOKEN_ERROR, value := none }, { json := [116, 114, 117, 0], pos := 0 }) := by
    rw [json_get_next_token_first (s := 0) (c := 116) (by decide)]
    simp [keyword_case, strncmp_eq]
  have h2 : json_get_next_token { json := [32, 43, 0], pos := 0 } =
      some ({ type := TOKEN_ERROR, value := none }, { json := [32, 43, 0], pos := 1 }) := by
    rw [json_get_next_token_first (s := 1) (c := 43) (by decide)]
    rfl
  exact ⟨⟨h1, (error_repeats _ _ _ 0 116 (by decide) (by decide) h1 rfl 3).2⟩,
    ⟨h2, (error_repeats _ _ _ 1 43 (by decide) (by decide) h2 rfl 3).2⟩⟩

/-- C20: when the first non-whitespace byte, at index `s`, is a quote followed
by a well-formed body and then the sentinel (no closing quote, the scan stopping
exactly on the sentinel), the call returns the error token and the call after
it returns the end of input, the cursor staying on the sentinel. -/
theorem unterminated_string_then_eof (t : JsonTokenizer) (s : Nat) (body rest : List Nat)
    (h : FirstNonWs t s 34) (hb : StringBody body)
    (hd : t.json.drop (s + 1) = body ++ 0 :: rest) :
    call_sequence 2 t =
      some ([{ type := TOKEN_ERROR, value := none }, { type := TOKEN_EOF, value := none }],
        { json := t.json, pos := s + 1 + body.length }) := by
  have h1 := unterminated_string_error t s body rest h hb hd
  have hz : t.json[s + 1 + body.length]? = some 0 :=
    getElem?_of_drop_eq_cons (drop_add_of_drop_eq_append body (0 :: rest) hd)
  have hf : FirstNonWs { json := t.json, pos := s + 1 + body.length } (s + 1 + body.length) 0 :=
    ⟨le_rfl, fun i hi hp => absurd hp (by simp only; omega), hz, by decide⟩
  have h2 : json_get_next_token { json := t.json, pos := s + 1 + body.length } =
      some ({ type := TOKEN_EOF, value := none },
        { json := t.json, pos := s + 1 + body.length }) := by
    rw [json_get_next_token_first hf]
    rfl
  simp only [call_sequence, h1, h2]

/-- Witness for C20: the input `"abc` (quote, a, b, c, then the sentinel)
gives the error token and then the end of input. -/
theorem unterminated_string_then_eof_witness :
    FirstNonWs { json := [34, 97, 98, 99, 0], pos := 0 } 0 34 ∧
    StringBody [97, 98, 99] ∧
    call_sequence 2 { json := [34, 97, 98, 99, 0], pos := 0 } =
      some ([{ type := TOKEN_ERROR, value := none }, { type := TOKEN_EOF, value := none }],
        { json := [34, 97, 98, 99, 0], pos := 4 }) :=
  have hb : StringBody [97, 98, 99] :=
    .plain 97 _ (by decide) (by decide) (by decide)
      (.plain 98 _ (by decide) (by decide) (by decide)
        (.plain 99 _ (by decide) (by decide) (by decide) .nil))
  ⟨by decide, hb,
    unterminated_string_then_eof { json := [34, 97, 98, 99, 0], pos := 0 } 0 [97, 98, 99] []
      (by decide) hb rfl⟩

/-! ## A whole document -/

/-- C14: from `json_tokenizer_init` on the input `{"a":1,"b":[true,false,null]}`
sixteen successive calls return, in order, the left brace, the string `a`, the
colon, the number `1`, the comma, the string `b`, the colon, the left bracket,
`true`, the comma, `false`, the comma, `null`, the right bracket, the right
brace and the end of input; only the string and number tokens carry a value. -/
theorem document_tokens :
    call_sequence 16 (json_tokenizer_init
      [123, 34, 97, 34, 58, 49, 44, 34, 98, 34, 58, 91, 116, 114, 117, 101, 44,
        102, 97, 108, 115, 101, 44, 110, 117, 108, 108, 93, 125, 0]) =
    some ([{ type := TOKEN_LEFT_BRACE, value := none },
        { type := TOKEN_STRING, value := some [97] },
        { type := TOKEN_COLON, value := none },
        { type := TOKEN_NUMBER, value := some [49] },
        { type := TOKEN_COMMA, value := none },
        { type := TOKEN_STRING, value := some [98] },
        { type := TOKEN_COLON, value := none },
        { type := TOKEN_LEFT_BRACKET, value := none },
        { type := TOKEN_TRUE, value := none },
        { type := TOKEN_COMMA, value := none },
        { type := TOKEN_FALSE, value := none },
        { type := TOKEN_COMMA, value := none },
        { type := TOKEN_NULL, value := none },
        { type := TOKEN_RIGHT_BRACKET, value := none },
        { type := TOKEN_RIGHT_BRACE, value := none },
        { type := TOKEN_EOF, value := none }],
      { json := [123, 34, 97, 34, 58, 49, 44, 34, 98, 34, 58, 91, 116, 114, 117, 101, 44,
        102, 97, 108, 115, 101, 44, 110, 117, 108, 108, 93, 125, 0],
        pos := 29 }) := by
  simp [call_sequence, json_tokenizer_init, json_get_next_token, string_case, number_case,
    keyword_case, strncmp_eq, skip_whitespace_stop, json_is_whitespace,
    string_loop_next, string_loop_stop, digit_loop_next, digit_loop_stop, json_strdup_range]

end TinyJson
